import Mathlib

/-!
A shallow embedding of `sphinx_multiversion` (files `git.py` and `main.py`)
together with theorems checking the repository's natural-language
specification against the code.

Modelling conventions:
* Regular-expression whitelists (`re.match(pattern, s)`) are modelled as
  predicates `String → Bool`; a pattern that is `None` in Python is `none`.
* The composed expression `float(re.match(smv_symver_pattern, x.refname).group(1))`
  is modelled as a single function `String → Option K` for a linear order `K`:
  `none` models the case where the expression raises (no regex match, or a
  capture group that `float` rejects).
* Python's `datetime` values (`creatordate`) are modelled as `Nat`.
* Python string comparison (used by tuple sort keys) is code-point
  lexicographic; it is modelled by an `Ordering`-valued comparison on the
  underlying character lists.
* Python's `sorted` is a stable sort; it is modelled by `List.insertionSort`
  (which is stable) over the decidable total preorder given by the sort key.
* Effects (subprocess calls, filesystem writes) are modelled by an event
  trace; fallible external calls are oracle fields of an environment record.
-/

namespace SphinxMultiversion

/-- `git.GitVersionRef` namedtuple: field order
`(name, commit, source, is_remote, refname, creatordate)`. -/
structure GitVersionRef where
  name : String
  commit : String
  source : String
  is_remote : Bool
  refname : String
  creatordate : Nat
deriving DecidableEq, Repr

/-! ### An `Ordering`-valued comparison framework

Python compares sort-key tuples lexicographically, comparing `bool`s as
`False < True`, strings by code points and dates chronologically.  We build
kernel-computable comparisons and prove the laws needed for sortedness. -/

/-- Three-way comparison from a linear order (with decidable `<`). -/
def linCmp {α : Type} [LinearOrder α] (a b : α) : Ordering :=
  if a < b then .lt else if b < a then .gt else .eq

/-- Laws of a comparison that characterises equality. -/
structure LawfulCmp {α : Type} (c : α → α → Ordering) : Prop where
  eq_of : ∀ a b, c a b = .eq → a = b
  refl : ∀ a, c a a = .eq
  lt_trans : ∀ a b d, c a b = .lt → c b d = .lt → c a d = .lt
  swap : ∀ a b, (c a b).swap = c b a

/-- Laws of a comparison on a composite whose `eq` need not force equality. -/
structure WeakCmp {α : Type} (c : α → α → Ordering) : Prop where
  refl : ∀ a, c a a = .eq
  swap : ∀ a b, (c a b).swap = c b a
  lt_trans : ∀ a b d, c a b = .lt → c b d = .lt → c a d = .lt
  eq_left : ∀ a b, c a b = .eq → ∀ d, c a d = c b d

theorem lawful_linCmp {α : Type} [LinearOrder α] : LawfulCmp (linCmp (α := α)) := by
  constructor
  · intro a b h
    by_cases h1 : a < b
    · simp [linCmp, h1] at h
    · by_cases h2 : b < a
      · simp [linCmp, h1, h2] at h
      · exact le_antisymm (not_lt.mp h2) (not_lt.mp h1)
  · intro a
    unfold linCmp
    simp
  · intro a b d hab hbd
    unfold linCmp at hab hbd
    by_cases h1 : a < b
    · by_cases h2 : b < d
      · unfold linCmp
        simp [lt_trans h1 h2]
      · rw [if_neg h2] at hbd
        split at hbd <;> simp_all
    · rw [if_neg h1] at hab
      split at hab <;> simp_all
  · intro a b
    unfold linCmp
    rcases lt_trichotomy a b with h | h | h
    · simp [h, not_lt_of_gt h, Ordering.swap]
    · simp [h, lt_irrefl, Ordering.swap]
    · simp [h, not_lt_of_gt h, Ordering.swap]

/-- Lexicographic comparison of lists (models Python string comparison on
the code-point lists). -/
def listCmp {α : Type} (c : α → α → Ordering) : List α → List α → Ordering
  | [], [] => .eq
  | [], _ :: _ => .lt
  | _ :: _, [] => .gt
  | a :: as, b :: bs => (c a b).then (listCmp c as bs)

theorem ordering_then_eq {o p : Ordering} (h : o.then p = .eq) : o = .eq ∧ p = .eq := by
  cases o <;> cases p <;> simp_all [Ordering.then]

theorem ordering_swap_inj {o p : Ordering} (h : o.swap = p.swap) : o = p := by
  cases o <;> cases p <;> simp_all [Ordering.swap]

theorem ordering_then_swap (o p : Ordering) : (o.then p).swap = o.swap.then p.swap := by
  cases o <;> cases p <;> rfl

theorem ordering_then_lt {o p : Ordering} (h : o.then p = .lt) :
    o = .lt ∨ (o = .eq ∧ p = .lt) := by
  cases o <;> cases p <;> simp_all [Ordering.then]

theorem lawful_listCmp {α : Type} {c : α → α → Ordering} (hc : LawfulCmp c) :
    LawfulCmp (listCmp c) := by
  constructor
  · intro a
    induction a with
    | nil => intro b h; cases b <;> simp_all [listCmp]
    | cons x xs ih =>
      intro b h
      cases b with
      | nil => simp [listCmp] at h
      | cons y ys =>
        simp only [listCmp] at h
        obtain ⟨h1, h2⟩ := ordering_then_eq h
        rw [hc.eq_of _ _ h1, ih _ h2]
  · intro a
    induction a with
    | nil => rfl
    | cons x xs ih => simp [listCmp, hc.refl, Ordering.then, ih]
  · intro a
    induction a with
    | nil =>
      intro b d hab hbd
      cases b with
      | nil => cases d <;> simp_all [listCmp]
      | cons y ys => cases d <;> simp_all [listCmp]
    | cons x xs ih =>
      intro b d hab hbd
      cases b with
      | nil => simp [listCmp] at hab
      | cons y ys =>
        cases d with
        | nil => simp [listCmp] at hbd
        | cons z zs =>
          simp only [listCmp] at hab hbd ⊢
          rcases ordering_then_lt hab with h1 | ⟨h1, h1'⟩
          · rcases ordering_then_lt hbd with h2 | ⟨h2, h2'⟩
            · simp [hc.lt_trans _ _ _ h1 h2, Ordering.then]
            · rw [hc.eq_of _ _ h2] at h1
              simp [h1, Ordering.then]
          · rw [hc.eq_of _ _ h1]
            rcases ordering_then_lt hbd with h2 | ⟨h2, h2'⟩
            · simp [h2, Ordering.then]
            · rw [hc.eq_of _ _ h2]
              simp [hc.refl, Ordering.then, ih _ _ h1' h2']
  · intro a
    induction a with
    | nil => intro b; cases b <;> rfl
    | cons x xs ih =>
      intro b
      cases b with
      | nil => rfl
      | cons y ys =>
        simp only [listCmp, ordering_then_swap, hc.swap, ih]

/-- Python string comparison (code-point lexicographic). -/
def strCmp (a b : String) : Ordering :=
  listCmp linCmp a.data b.data

theorem lawful_strCmp : LawfulCmp strCmp := by
  have h := lawful_listCmp (lawful_linCmp (α := Char))
  constructor
  · intro a b hab
    exact String.ext (h.eq_of _ _ hab)
  · intro a; exact h.refl _
  · intro a b d h1 h2; exact h.lt_trans _ _ _ h1 h2
  · intro a b; exact h.swap _ _

/-- Comparison of a projection followed by a tie-breaking comparison
(lexicographic tuple comparison, one component at a time). -/
def projThen {α β : Type} (cf : β → β → Ordering) (f : α → β) (rest : α → α → Ordering)
    (x y : α) : Ordering :=
  (cf (f x) (f y)).then (rest x y)

theorem weak_of_lawful_proj {α β : Type} {cf : β → β → Ordering} (hf : LawfulCmp cf)
    (f : α → β) : WeakCmp (fun x y => cf (f x) (f y)) := by
  constructor
  · intro a; exact hf.refl _
  · intro a b; exact hf.swap _ _
  · intro a b d h1 h2; exact hf.lt_trans _ _ _ h1 h2
  · intro a b h d
    rw [hf.eq_of _ _ h]

theorem weak_projThen {α β : Type} {cf : β → β → Ordering} (hf : LawfulCmp cf)
    (f : α → β) {rest : α → α → Ordering} (hr : WeakCmp rest) :
    WeakCmp (projThen cf f rest) := by
  constructor
  · intro a
    simp [projThen, hf.refl, Ordering.then, hr.refl]
  · intro a b
    simp [projThen, ordering_then_swap, hf.swap, hr.swap]
  · intro a b d h1 h2
    simp only [projThen] at h1 h2 ⊢
    rcases ordering_then_lt h1 with hh | ⟨hh, hh'⟩
    · rcases ordering_then_lt h2 with hk | ⟨hk, hk'⟩
      · simp [hf.lt_trans _ _ _ hh hk, Ordering.then]
      · rw [hf.eq_of _ _ hk] at hh
        simp [hh, Ordering.then]
    · rw [hf.eq_of _ _ hh]
      rcases ordering_then_lt h2 with hk | ⟨hk, hk'⟩
      · simp [hk, Ordering.then]
      · rw [hf.eq_of _ _ hk]
        simp [hf.refl, Ordering.then, hr.lt_trans _ _ _ hh' hk']
  · intro a b h d
    simp only [projThen] at h ⊢
    obtain ⟨h1, h2⟩ := ordering_then_eq h
    rw [hf.eq_of _ _ h1, hr.eq_left _ _ h2]

theorem weakCmp_le_total {α : Type} {c : α → α → Ordering} (hc : WeakCmp c) (a b : α) :
    c a b ≠ .gt ∨ c b a ≠ .gt := by
  by_cases h : c a b = .gt
  · right
    intro hb
    have := hc.swap a b
    rw [h, hb] at this
    simp [Ordering.swap] at this
  · left; exact h

theorem weakCmp_le_trans {α : Type} {c : α → α → Ordering} (hc : WeakCmp c) (a b d : α)
    (h1 : c a b ≠ .gt) (h2 : c b d ≠ .gt) : c a d ≠ .gt := by
  cases hab : c a b with
  | gt => exact absurd hab h1
  | eq =>
    rw [hc.eq_left _ _ hab]
    exact h2
  | lt =>
    cases hbd : c b d with
    | gt => exact absurd hbd h2
    | eq =>
      have hdb : c d b = .eq := by
        have hs := hc.swap d b
        rw [hbd] at hs
        exact ordering_swap_inj (p := .eq) hs
      have hda : c d a = c b a := hc.eq_left d b hdb a
      have h3 : c a d = c a b :=
        ordering_swap_inj (by rw [hc.swap a d, hc.swap a b, hda])
      rw [h3]
      exact h1
    | lt =>
      simp [hc.lt_trans _ _ _ hab hbd]

/-! ### The two sort keys of `main` (main.py lines 281-291) -/

/-- First component of the tuple sort key: `not x.is_remote` when
`smv_prefer_remote_refs` is set, `x.is_remote` otherwise. -/
def firstComp (prefer_remote : Bool) (x : GitVersionRef) : Bool :=
  if prefer_remote then !x.is_remote else x.is_remote

/-- The tuple sort key `(is_remote?, *x)` of main.py lines 283/285, compared
the way Python compares the key tuples: lexicographically with components
`(firstComp, name, commit, source, is_remote, refname, creatordate)`. -/
def refTupleCmp (prefer_remote : Bool) : GitVersionRef → GitVersionRef → Ordering :=
  projThen linCmp (firstComp prefer_remote)
    (projThen strCmp (fun x => x.name)
      (projThen strCmp (fun x => x.commit)
        (projThen strCmp (fun x => x.source)
          (projThen linCmp (fun x => x.is_remote)
            (projThen strCmp (fun x => x.refname)
              (fun x y => linCmp x.creatordate y.creatordate))))))

/-- `a` sorts no later than `b` under the tuple key. -/
def refTupleLe (prefer_remote : Bool) (a b : GitVersionRef) : Prop :=
  refTupleCmp prefer_remote a b ≠ .gt

instance {prefer_remote : Bool} : DecidableRel (refTupleLe prefer_remote) :=
  fun a b => inferInstanceAs (Decidable (refTupleCmp prefer_remote a b ≠ .gt))

theorem weak_refTupleCmp (prefer_remote : Bool) : WeakCmp (refTupleCmp prefer_remote) := by
  unfold refTupleCmp
  apply weak_projThen lawful_linCmp
  apply weak_projThen lawful_strCmp
  apply weak_projThen lawful_strCmp
  apply weak_projThen lawful_strCmp
  apply weak_projThen lawful_linCmp
  apply weak_projThen lawful_strCmp
  exact weak_of_lawful_proj lawful_linCmp (fun x : GitVersionRef => x.creatordate)

theorem refTupleLe_total (prefer_remote : Bool) (a b : GitVersionRef) :
    refTupleLe prefer_remote a b ∨ refTupleLe prefer_remote b a :=
  weakCmp_le_total (weak_refTupleCmp prefer_remote) a b

theorem refTupleLe_trans (prefer_remote : Bool) (a b d : GitVersionRef)
    (h1 : refTupleLe prefer_remote a b) (h2 : refTupleLe prefer_remote b d) :
    refTupleLe prefer_remote a d :=
  weakCmp_le_trans (weak_refTupleCmp prefer_remote) a b d h1 h2

/-- Order on optional version-number keys; the `none` cases never occur in a
completed sort (the code raises instead), so their ordering is immaterial. -/
def optKeyLeB {K : Type} [LinearOrder K] : Option K → Option K → Bool
  | none, _ => true
  | some _, none => false
  | some a, some b => decide (a ≤ b)

theorem optKeyLeB_total {K : Type} [LinearOrder K] (oa ob : Option K) :
    optKeyLeB oa ob = true ∨ optKeyLeB ob oa = true := by
  cases oa <;> cases ob <;> simp [optKeyLeB] <;> exact le_total _ _

theorem optKeyLeB_trans {K : Type} [LinearOrder K] (oa ob oc : Option K)
    (h1 : optKeyLeB oa ob = true) (h2 : optKeyLeB ob oc = true) :
    optKeyLeB oa oc = true := by
  cases oa <;> cases ob <;> cases oc <;> simp_all [optKeyLeB]
  exact le_trans h1 h2

/-! ### Stability of `List.insertionSort`

Python's `sorted` is stable; `List.insertionSort` inserts each element in
front of the first element it is `≤` to, so elements that compare equal keep
their input order.  The lemma below captures the consequence used for the
tie-breaking theorem: any relation `R` that pairwise holds on the input still
holds on those output pairs whose sort keys are tied. -/

theorem pairwise_orderedInsert_keep {α : Type} (r : α → α → Prop) [DecidableRel r]
    (S : α → α → Prop) (x : α) :
    ∀ s : List α, s.Pairwise S → (∀ y ∈ s, S x y) → (∀ y ∈ s, ¬ r x y → S y x) →
      (List.orderedInsert r x s).Pairwise S := by
  intro s
  induction s with
  | nil =>
    intro _ _ _
    simp [List.orderedInsert]
  | cons y ys ih =>
    intro hp hafter hbefore
    rw [List.orderedInsert]
    by_cases hxy : r x y
    · rw [if_pos hxy]
      exact List.pairwise_cons.mpr ⟨hafter, hp⟩
    · rw [if_neg hxy]
      apply List.pairwise_cons.mpr
      refine ⟨?_, ?_⟩
      · intro z hz
        rcases (List.mem_orderedInsert r).mp hz with hzx | hzys
        · subst hzx
          exact hbefore y (List.mem_cons_self y ys) hxy
        · exact (List.pairwise_cons.mp hp).1 z hzys
      · exact ih (List.pairwise_cons.mp hp).2
          (fun z hz => hafter z (List.mem_cons_of_mem _ hz))
          (fun z hz h => hbefore z (List.mem_cons_of_mem _ hz) h)

theorem pairwise_insertionSort_tie {α : Type} (r : α → α → Prop) [DecidableRel r]
    (R : α → α → Prop) (l : List α) (h : l.Pairwise R) :
    (l.insertionSort r).Pairwise (fun a b => r b a → R a b) := by
  induction l with
  | nil => simp [List.insertionSort]
  | cons x xs ih =>
    rw [List.insertionSort]
    apply pairwise_orderedInsert_keep
    · exact ih (List.pairwise_cons.mp h).2
    · intro y hy _
      exact (List.pairwise_cons.mp h).1 y ((List.mem_insertionSort r).mp hy)
    · intro y _ hnr hr
      exact absurd hr hnr

/-! ### `git.get_refs` (git.py lines 74-126) -/

/-- `s.startswith(pre)`, computed on the code-point lists. -/
def strStartsWith (s pre : String) : Bool :=
  pre.data.isPrefixOf s.data

/-- `s.partition("/")[2]`: everything after the first `/`, `""` if there is
no `/`. -/
def afterFirstSlash : List Char → List Char
  | [] => []
  | c :: cs => if c = '/' then cs else afterFirstSlash cs

def partitionAfterSlash (s : String) : String :=
  ⟨afterFirstSlash s.data⟩

/-- `whitelist is None or not re.match(whitelist, s)` is a skip; the kept
case is therefore: the whitelist is present and the pattern matches. -/
def matchOpt (whitelist : Option (String → Bool)) (s : String) : Bool :=
  match whitelist with
  | none => false
  | some p => p s

/-- The whitelist filtering of one ref (git.py lines 79-113). -/
def keepRef (tagWL branchWL remoteWL : Option (String → Bool)) (ref : GitVersionRef) : Bool :=
  if ref.source = "tags" then
    matchOpt tagWL ref.name
  else if ref.source = "heads" then
    matchOpt branchWL ref.name
  else if ref.is_remote && remoteWL.isSome then
    matchOpt remoteWL (partitionAfterSlash ref.source) && matchOpt branchWL ref.name
  else
    false

/-- `missing_files == []` (git.py lines 115-124): every required file other
than `"."` exists at the ref. -/
def hasRequiredFiles (fileEx : String → String → Bool) (files : List String)
    (refname : String) : Bool :=
  (files.filter (fun f => f != "." && !(fileEx refname f))).isEmpty

/-- `git.get_refs`: sequential filtering of the repository's refs. -/
def getRefs (tagWL branchWL remoteWL : Option (String → Bool))
    (fileEx : String → String → Bool) (files : List String)
    (refs : List GitVersionRef) : List GitVersionRef :=
  refs.filter (fun ref =>
    keepRef tagWL branchWL remoteWL ref && hasRequiredFiles fileEx files ref.refname)

/-! ### Configuration and environment records for `main` -/

/-- The slice of a per-version sphinx config that `main` reads. -/
structure VersionConfig where
  version : String
deriving DecidableEq, Repr

/-- The `smv_*` configuration values of the top-level config.  `K` is the
linearly ordered type of parsed version numbers; `smv_symver_key` models
`float(re.match(smv_symver_pattern, s).group(1))`, with `none` for the case
where that expression raises. -/
structure Config (K : Type) where
  smv_tag_whitelist : Option (String → Bool)
  smv_branch_whitelist : Option (String → Bool)
  smv_remote_whitelist : Option (String → Bool)
  smv_released_pattern : String → Bool
  smv_outputdir_format : GitVersionRef → VersionConfig → String
  smv_prefer_remote_refs : Bool
  smv_symver_key : String → Option K

/-- Oracles for the external world: git refs, filesystem and subprocesses. -/
structure Env where
  all_refs : List GitVersionRef
  gitroot : String
  tmp : String
  copy_ok : GitVersionRef → Bool
  load_config : String → Option VersionConfig
  build_ok : String → Bool
  isdir : String → Bool
  file_exists : String → String → Bool
  abspath : String → String
  relpath : String → String → String

/-- The command-line arguments of `main` that the claims touch. -/
structure Args where
  sourcedir : String
  outputdir : String
  confdir : Option String
  noconfig : Bool
  dump_metadata : Bool
  skip_if_outputdir_exists : Bool
  dev_name : Option String
  dev_path : Option String
deriving DecidableEq, Repr

/-- Python truthiness of an optional string (`None` and `""` are falsy). -/
def optTruthy : Option String → Bool
  | none => false
  | some s => s != ""

/-- One metadata entry (main.py lines 346-359 and 384-397). -/
structure MEntry where
  name : String
  version : String
  release : String
  is_released : Bool
  source : String
  basedir : String
  sourcedir : String
  outputdir : String
  confdir : String
deriving DecidableEq, Repr

/-- Observable effects of a run. -/
inductive Ev where
  | loadGlobalConfig (confdir : String)
  | readGitRefs
  | copyTree (refname commit repopath : String)
  | loadCfg (confpath : String)
  | redirectWrite (file content : String)
  | metadataWrite
  | makeDirs (dir : String)
  | sphinxBuild (version_name sourcedir outputdir confdir : String)
deriving DecidableEq, Repr

/-- The exceptions `main` can propagate (everything it does not catch). -/
inductive MainError where
  | sortKeyFailure
  | devConfigFailure
  | buildFailure (version_name : String)
deriving DecidableEq, Repr

structure MainRun where
  trace : List Ev
  result : Except MainError Nat

/-- Model of `os.path.join` for the joins occurring here (second component
relative): `join(a, b) = a + "/" + b`, which also covers `join(a, "") = a + "/"`. -/
def pjoin (a b : String) : String :=
  a ++ "/" ++ b

/-- `_generate_html_redirection_page` (main.py lines 140-151). -/
def generateHtmlRedirectionPage (path : String) : String :=
  "<!-- This page is created automatically by documentation builder -->\n" ++
    "<!DOCTYPE html>\n<html>\n  <head>\n    <title>Redirecting to main branch docs</title>\n" ++
    "    <meta charset=\"utf-8\">\n    <meta http-equiv=\"refresh\" content=\"0; url=./" ++
    path ++ "\">\n    <link rel=\"canonical\" href=\"./" ++ path ++
    "\">\n  </head>\n</html>"

/-- Python `dict` assignment `m[k] = v`: replace in place if the key exists,
append otherwise (insertion order is preserved). -/
def dictInsert {β : Type} (m : List (String × β)) (k : String) (v : β) :
    List (String × β) :=
  if (m.map Prod.fst).contains k then
    m.map (fun p => if p.1 = k then (k, v) else p)
  else m ++ [(k, v)]

/-! ### Derived paths (main.py lines 245-270) -/

def sourcedirAbs (env : Env) (args : Args) : String :=
  env.abspath args.sourcedir

def confdirAbs (env : Env) (args : Args) : String :=
  match args.confdir with
  | some c => env.abspath c
  | none => sourcedirAbs env args

def sourcedirRel (env : Env) (args : Args) : String :=
  env.relpath (sourcedirAbs env args) env.gitroot

def confdirRel (env : Env) (args : Args) : String :=
  if optTruthy args.confdir then env.relpath (confdirAbs env args) env.gitroot
  else sourcedirRel env args

def conffile (env : Env) (args : Args) : String :=
  pjoin (confdirRel env args) "conf.py"

/-! ### Metadata generation (main.py lines 296-362) -/

structure MetaSt where
  metadata : List (String × MEntry)
  outputdirs : List String
  released : List String
  trace : List Ev
deriving DecidableEq, Repr

/-- `repopath = os.path.join(tmp, gitref.commit)` (main.py line 302). -/
def repopathOf (env : Env) (ref : GitVersionRef) : String :=
  pjoin env.tmp ref.commit

/-- `confpath = os.path.join(repopath, confdir)` (main.py line 314). -/
def confpathOf (env : Env) (args : Args) (ref : GitVersionRef) : String :=
  pjoin (repopathOf env ref) (confdirRel env args)

/-- The per-version config load `_load_sphinx_config(confpath, ...)`. -/
def refVCfg (env : Env) (args : Args) (ref : GitVersionRef) : Option VersionConfig :=
  env.load_config (confpathOf env args ref)

/-- The metadata entry created for a surviving git ref. -/
def mkEntry {K : Type} (cfg : Config K) (env : Env) (args : Args)
    (ref : GitVersionRef) (vcfg : VersionConfig) (odir : String) : MEntry :=
  { name := ref.name
    version := vcfg.version
    release := ref.name
    is_released := cfg.smv_released_pattern ref.refname
    source := ref.source
    basedir := repopathOf env ref
    sourcedir := pjoin (repopathOf env ref) (sourcedirRel env args)
    outputdir := pjoin (env.abspath args.outputdir) odir
    confdir := confpathOf env args ref }

/-- One iteration of the metadata loop: copy the tree (skip on failure),
load the config (skip on failure), drop duplicate output dirs, then record
the entry. -/
def metaStep {K : Type} (cfg : Config K) (env : Env) (args : Args)
    (st : MetaSt) (ref : GitVersionRef) : MetaSt :=
  let st1 := { st with
    trace := st.trace ++ [Ev.copyTree ref.refname ref.commit (repopathOf env ref)] }
  if env.copy_ok ref then
    let st2 := { st1 with trace := st1.trace ++ [Ev.loadCfg (confpathOf env args ref)] }
    match refVCfg env args ref with
    | none => st2
    | some vcfg =>
      let odir := cfg.smv_outputdir_format ref vcfg
      if st2.outputdirs.contains odir then st2
      else
        let entry := mkEntry cfg env args ref vcfg odir
        { st2 with
          metadata := dictInsert st2.metadata ref.name entry
          outputdirs := st2.outputdirs ++ [odir]
          released := st2.released ++ (if entry.is_released then [ref.name] else []) }
  else st1

def metaLoop {K : Type} (cfg : Config K) (env : Env) (args : Args)
    (refs : List GitVersionRef) (st : MetaSt) : MetaSt :=
  refs.foldl (metaStep cfg env args) st

/-- The development version's metadata entry (main.py lines 384-397).
Note that the code sets its `sourcedir` to `confdir_absolute`. -/
def devEntry (env : Env) (args : Args) (dn : String) : MEntry :=
  { name := dn
    version := dn
    release := dn
    is_released := false
    source := "heads"
    basedir := env.gitroot
    sourcedir := confdirAbs env args
    outputdir := pjoin (env.abspath args.outputdir) (args.dev_path.getD "")
    confdir := confdirAbs env args }

/-- Outcome of the `if args.dev_name:` block: a config-load failure is
re-raised (main.py line 374), anything else extends the metadata. -/
inductive DevOut where
  | fail (tr : List Ev)
  | ok (st : MetaSt)

deriving instance DecidableEq for DevOut

def devStage (env : Env) (args : Args) (st : MetaSt) : DevOut :=
  match args.dev_name with
  | none => .ok st
  | some dn =>
    if dn = "" then .ok st
    else
      let tr := st.trace ++ [Ev.loadCfg (confdirAbs env args)]
      match env.load_config (confdirAbs env args) with
      | none => .fail tr
      | some _ => .ok { st with metadata := dictInsert st.metadata dn (devEntry env args dn), trace := tr }

/-! ### Ordering of the refs (main.py lines 281-291) -/

/-- `sorted(gitrefs, key=...)` over the symver keys: compares the parsed
version numbers of the two refnames. -/
def symverLe {K : Type} [LinearOrder K] (key : String → Option K)
    (a b : GitVersionRef) : Prop :=
  optKeyLeB (key a.refname) (key b.refname) = true

instance {K : Type} [LinearOrder K] {key : String → Option K} :
    DecidableRel (symverLe key) :=
  fun a b => inferInstanceAs (Decidable (_ = true))

/-- The first, tuple-keyed sort (main.py lines 282-285). -/
def tupleSorted {K : Type} (cfg : Config K) (l : List GitVersionRef) : List GitVersionRef :=
  List.insertionSort (refTupleLe cfg.smv_prefer_remote_refs) l

/-- Both sorts in sequence (main.py lines 281-291).  The second sort's key
function raises when `smv_symver_pattern` fails on a refname, which aborts
`main`; that case is `none`. -/
def orderRefs {K : Type} [LinearOrder K] (cfg : Config K) (l : List GitVersionRef) :
    Option (List GitVersionRef) :=
  if l.all (fun x => (cfg.smv_symver_key x.refname).isSome) then
    some (List.insertionSort (symverLe cfg.smv_symver_key) (tupleSorted cfg l))
  else none

/-! ### `main` (main.py lines 231-484) -/

def mainRefs {K : Type} (cfg : Config K) (env : Env) (args : Args) : List GitVersionRef :=
  getRefs cfg.smv_tag_whitelist cfg.smv_branch_whitelist cfg.smv_remote_whitelist
    env.file_exists [sourcedirRel env args, conffile env args] env.all_refs

def mainSorted {K : Type} [LinearOrder K] (cfg : Config K) (env : Env) (args : Args) :
    Option (List GitVersionRef) :=
  orderRefs cfg (mainRefs cfg env args)

def initTrace (env : Env) (args : Args) : List Ev :=
  [Ev.loadGlobalConfig (confdirAbs env args), Ev.readGitRefs]

def metaState {K : Type} (cfg : Config K) (env : Env) (args : Args)
    (sortedRefs : List GitVersionRef) : MetaSt :=
  metaLoop cfg env args sortedRefs ⟨[], [], [], initTrace env args⟩

/-- Redirection target (main.py lines 410-415). -/
def redirTarget (released : List String) : String :=
  match released.getLast? with
  | some v => pjoin (pjoin (pjoin ".." "versions") v) "index.html"
  | none => pjoin ".." "index.html"

/-- Whether the build loop skips an entry (main.py lines 428-435). -/
def buildSkip (env : Env) (args : Args) (data : MEntry) : Bool :=
  args.skip_if_outputdir_exists && env.isdir data.outputdir &&
    decide (args.dev_name ≠ some data.name)

/-- The build loop (main.py lines 425-482): one `sphinx-build` subprocess
per non-skipped entry, sequentially; every invocation receives
`-c confdir_absolute` (main.py lines 449-450), the live checkout's
configuration directory, recorded as the event's `confdir`; a failing
subprocess propagates `CalledProcessError` out of `main`. -/
def buildLoop (env : Env) (args : Args) :
    List (String × MEntry) → List Ev → MainRun
  | [], tr => ⟨tr, .ok 0⟩
  | (vname, data) :: rest, tr =>
    if buildSkip env args data then buildLoop env args rest tr
    else
      let tr2 := tr ++ [Ev.makeDirs data.outputdir,
        Ev.sphinxBuild vname data.sourcedir data.outputdir (confdirAbs env args)]
      if env.build_ok vname then buildLoop env args rest tr2
      else ⟨tr2, .error (.buildFailure vname)⟩

/-- Tail of `main` after the dev stage: dump-metadata exit, empty-metadata
exit, redirect page, metadata file, build loop. -/
def finishMain (env : Env) (args : Args) (st : MetaSt) : MainRun :=
  if args.dump_metadata then ⟨st.trace, .ok 0⟩
  else if st.metadata.isEmpty then ⟨st.trace, .ok 2⟩
  else
    let target := redirTarget st.released
    let htmlPath := env.abspath (pjoin (sourcedirRel env args) "_static/index.html")
    let tr := st.trace ++
      [Ev.redirectWrite htmlPath (generateHtmlRedirectionPage target), Ev.metadataWrite]
    buildLoop env args st.metadata tr

/-- `main`.  Returns the event trace and either an exit code or the
uncaught exception that aborted the run. -/
def mainModel {K : Type} [LinearOrder K] (cfg : Config K) (env : Env) (args : Args) :
    MainRun :=
  if args.noconfig then ⟨[], .ok 1⟩
  else
    match mainSorted cfg env args with
    | none => ⟨initTrace env args, .error .sortKeyFailure⟩
    | some sortedRefs =>
      match devStage env args (metaState cfg env args sortedRefs) with
      | .fail tr => ⟨tr, .error .devConfigFailure⟩
      | .ok st => finishMain env args st

/-! ### Lemmas about `dictInsert` (Python dict semantics) -/

theorem keys_dictInsert {β : Type} (m : List (String × β)) (k : String) (v : β) :
    (dictInsert m k v).map Prod.fst =
      if (m.map Prod.fst).contains k then m.map Prod.fst else m.map Prod.fst ++ [k] := by
  unfold dictInsert
  split
  · simp only [if_pos ‹_›, List.map_map]
    congr 1
    funext p
    by_cases h : p.1 = k <;> simp [h, Function.comp]
  · simp [if_neg ‹_›]

theorem contains_iff_mem {l : List String} {k : String} : l.contains k = true ↔ k ∈ l :=
  List.elem_iff

theorem contains_eq_false_of_not_mem {l : List String} {k : String} (h : k ∉ l) :
    l.contains k = false := by
  cases hc : l.contains k
  · rfl
  · exact absurd (contains_iff_mem.mp hc) h

theorem keys_dictInsert_nodup {β : Type} (m : List (String × β)) (k : String) (v : β)
    (h : (m.map Prod.fst).Nodup) : ((dictInsert m k v).map Prod.fst).Nodup := by
  rw [keys_dictInsert]
  split
  · exact h
  · rw [List.nodup_append]
    refine ⟨h, List.nodup_singleton k, List.disjoint_singleton.mpr ?_⟩
    intro hk
    exact absurd (contains_iff_mem.mpr hk) (by simp_all)

theorem mem_dictInsert {β : Type} {m : List (String × β)} {k : String} {v : β} {p : String × β}
    (h : p ∈ dictInsert m k v) : p ∈ m ∨ p = (k, v) := by
  unfold dictInsert at h
  split at h
  · rcases List.mem_map.mp h with ⟨q, hq, hqp⟩
    by_cases hqk : q.1 = k
    · right
      simp [hqk] at hqp
      exact hqp.symm
    · left
      simp [hqk] at hqp
      subst hqp
      exact hq
  · rcases List.mem_append.mp h with h1 | h1
    · exact Or.inl h1
    · exact Or.inr (by simpa using h1)

theorem lookup_replace_ne {β : Type} (m : List (String × β)) (k : String) (v : β)
    {n : String} (h : n ≠ k) :
    List.lookup n (m.map (fun p => if p.1 = k then (k, v) else p)) = List.lookup n m := by
  induction m with
  | nil => rfl
  | cons p m ih =>
    obtain ⟨pk, pv⟩ := p
    rw [List.map_cons]
    by_cases hpk : pk = k
    · rw [show (if (pk, pv).1 = k then (k, v) else (pk, pv)) = (k, v) from by simp [hpk]]
      have hb : (n == k) = false := beq_false_of_ne h
      have hb2 : (n == pk) = false := beq_false_of_ne (by rw [hpk]; exact h)
      simp only [List.lookup, hb, hb2, ih]
    · rw [show (if (pk, pv).1 = k then (k, v) else (pk, pv)) = (pk, pv) from by simp [hpk]]
      by_cases hnp : n = pk
      · have hb : (n == pk) = true := by simp [hnp]
        simp only [List.lookup, hb]
      · have hb : (n == pk) = false := beq_false_of_ne hnp
        simp only [List.lookup, hb, ih]

theorem lookup_replace_eq {β : Type} (m : List (String × β)) (k : String) (v : β)
    (h : k ∈ m.map Prod.fst) :
    List.lookup k (m.map (fun p => if p.1 = k then (k, v) else p)) = some v := by
  induction m with
  | nil => simp at h
  | cons p m ih =>
    obtain ⟨pk, pv⟩ := p
    rw [List.map_cons]
    by_cases hpk : pk = k
    · rw [show (if (pk, pv).1 = k then (k, v) else (pk, pv)) = (k, v) from by simp [hpk]]
      simp [List.lookup]
    · rw [show (if (pk, pv).1 = k then (k, v) else (pk, pv)) = (pk, pv) from by simp [hpk]]
      have hb : (k == pk) = false := beq_false_of_ne (fun hk => hpk hk.symm)
      simp only [List.lookup, hb]
      apply ih
      simp only [List.map_cons, List.mem_cons] at h
      rcases h with h | h
      · exact absurd h.symm hpk
      · exact h

theorem lookup_append_single {β : Type} (m : List (String × β)) (k : String) (v : β)
    (n : String) :
    List.lookup n (m ++ [(k, v)]) =
      match List.lookup n m with
      | some w => some w
      | none => if n = k then some v else none := by
  induction m with
  | nil =>
    by_cases hnk : n = k
    · simp [List.lookup, hnk]
    · simp [List.lookup, beq_false_of_ne hnk, hnk]
  | cons p m ih =>
    obtain ⟨pk, pv⟩ := p
    by_cases hnp : n = pk
    · have hb : (n == pk) = true := by simp [hnp]
      simp [List.lookup, hb]
    · have hb : (n == pk) = false := beq_false_of_ne hnp
      simp only [List.cons_append, List.lookup, hb]
      exact ih

theorem lookup_dictInsert {β : Type} (m : List (String × β)) (k : String) (v : β)
    (n : String) :
    List.lookup n (dictInsert m k v) = if n = k then some v else List.lookup n m := by
  unfold dictInsert
  by_cases hc : (m.map Prod.fst).contains k
  · rw [if_pos hc]
    by_cases hnk : n = k
    · subst hnk
      rw [lookup_replace_eq m n v (contains_iff_mem.mp hc), if_pos rfl]
    · rw [lookup_replace_ne m k v hnk, if_neg hnk]
  · rw [if_neg hc, lookup_append_single]
    by_cases hnk : n = k
    · subst hnk
      have : List.lookup n m = none := by
        induction m with
        | nil => rfl
        | cons p m ih =>
          obtain ⟨pk, pv⟩ := p
          have hnp : n ≠ pk := by
            intro h
            exact hc (contains_iff_mem.mpr (by simp [h]))
          simp only [List.lookup, beq_false_of_ne hnp]
          exact ih (fun h => hc (contains_iff_mem.mpr (by
            rcases contains_iff_mem.mp h with hm
            simp at hm ⊢
            tauto)))
      simp [this]
    · rw [if_neg hnk]
      cases List.lookup n m <;> simp [hnk]

/-- Folding dict inserts over a list of refs: the surviving value under a
key is created from the last ref carrying that name. -/
theorem foldl_dictInsert_lookup {β : Type} (e : GitVersionRef → β)
    (rs : List GitVersionRef) (n : String) :
    ∀ m : List (String × β),
      List.lookup n (rs.foldl (fun m r => dictInsert m r.name (e r)) m) =
        match (rs.filter (fun r => r.name == n)).getLast? with
        | some r => some (e r)
        | none => List.lookup n m := by
  induction rs with
  | nil => intro m; simp
  | cons r rs ih =>
    intro m
    rw [List.foldl_cons, ih, List.filter_cons]
    by_cases hrn : r.name = n
    · have hb : (r.name == n) = true := by simp [hrn]
      rw [if_pos (by rw [hb])]
      cases hfil : rs.filter (fun r => r.name == n) with
      | cons x xs =>
        rw [List.getLast?_cons_cons]
        cases hgl : (x :: xs).getLast? with
        | some y => rfl
        | none => simp at hgl
      | nil =>
        simp only [List.getLast?_nil, List.getLast?_singleton]
        rw [lookup_dictInsert, if_pos hrn.symm]
    · have hb : (r.name == n) = false := by simp [hrn]
      rw [if_neg (by rw [hb]; simp)]
      cases hfil : rs.filter (fun r => r.name == n) with
      | cons x xs =>
        cases hgl : (x :: xs).getLast? with
        | some y => rfl
        | none => simp at hgl
      | nil =>
        simp only [List.getLast?_nil]
        rw [lookup_dictInsert, if_neg (fun h => hrn h.symm)]

theorem foldl_dictInsert_keys_nodup {β : Type} (e : GitVersionRef → β)
    (rs : List GitVersionRef) :
    ∀ m : List (String × β), ((m.map Prod.fst).Nodup) →
      (((rs.foldl (fun m r => dictInsert m r.name (e r)) m)).map Prod.fst).Nodup := by
  induction rs with
  | nil => intro m h; exact h
  | cons r rs ih =>
    intro m h
    rw [List.foldl_cons]
    exact ih _ (keys_dictInsert_nodup m r.name (e r) h)

theorem foldl_dictInsert_mem {β : Type} (e : GitVersionRef → β)
    (rs : List GitVersionRef) :
    ∀ (m : List (String × β)) (p : String × β),
      p ∈ rs.foldl (fun m r => dictInsert m r.name (e r)) m →
        p ∈ m ∨ ∃ r ∈ rs, p = (r.name, e r) := by
  induction rs with
  | nil => intro m p h; exact Or.inl h
  | cons r rs ih =>
    intro m p h
    rw [List.foldl_cons] at h
    rcases ih _ p h with h1 | ⟨r', hr', hp⟩
    · rcases mem_dictInsert h1 with h2 | h2
      · exact Or.inl h2
      · exact Or.inr ⟨r, List.mem_cons_self r rs, h2⟩
    · exact Or.inr ⟨r', List.mem_cons_of_mem _ hr', hp⟩

/-! ### Characterisation of the metadata loop -/

/-- The output-directory format string of a ref whose config loads. -/
def odirOf {K : Type} (cfg : Config K) (env : Env) (args : Args) (r : GitVersionRef) : String :=
  match refVCfg env args r with
  | some vcfg => cfg.smv_outputdir_format r vcfg
  | none => ""

/-- The metadata entry a surviving ref produces. -/
def entryOf {K : Type} (cfg : Config K) (env : Env) (args : Args) (r : GitVersionRef) : MEntry :=
  match refVCfg env args r with
  | some vcfg => mkEntry cfg env args r vcfg (cfg.smv_outputdir_format r vcfg)
  | none => mkEntry cfg env args r ⟨""⟩ ""

/-- The refs that survive all three per-version skip checks (copy failure,
config failure, duplicate output dir), threading the set of used output
dirs. -/
def survivors {K : Type} (cfg : Config K) (env : Env) (args : Args) :
    List GitVersionRef → List String → List GitVersionRef
  | [], _ => []
  | r :: rs, used =>
    if env.copy_ok r then
      match refVCfg env args r with
      | none => survivors cfg env args rs used
      | some vcfg =>
        if used.contains (cfg.smv_outputdir_format r vcfg) then
          survivors cfg env args rs used
        else
          r :: survivors cfg env args rs (used ++ [cfg.smv_outputdir_format r vcfg])
    else survivors cfg env args rs used

theorem metaStep_copy_fail {K : Type} {cfg : Config K} {env : Env} {args : Args}
    {st : MetaSt} {r : GitVersionRef} (h : env.copy_ok r = false) :
    metaStep cfg env args st r =
      { st with trace := st.trace ++ [Ev.copyTree r.refname r.commit (repopathOf env r)] } := by
  simp [metaStep, h]

theorem metaStep_config_fail {K : Type} {cfg : Config K} {env : Env} {args : Args}
    {st : MetaSt} {r : GitVersionRef} (h1 : env.copy_ok r = true)
    (h2 : refVCfg env args r = none) :
    metaStep cfg env args st r =
      { st with trace := st.trace ++ [Ev.copyTree r.refname r.commit (repopathOf env r),
        Ev.loadCfg (confpathOf env args r)] } := by
  simp [metaStep, h1, h2]

theorem metaStep_dup_odir {K : Type} {cfg : Config K} {env : Env} {args : Args}
    {st : MetaSt} {r : GitVersionRef} {vcfg : VersionConfig} (h1 : env.copy_ok r = true)
    (h2 : refVCfg env args r = some vcfg)
    (h3 : st.outputdirs.contains (cfg.smv_outputdir_format r vcfg) = true) :
    metaStep cfg env args st r =
      { st with trace := st.trace ++ [Ev.copyTree r.refname r.commit (repopathOf env r),
        Ev.loadCfg (confpathOf env args r)] } := by
  simp [metaStep, h1, h2, contains_iff_mem.mp h3]

theorem metaStep_record {K : Type} {cfg : Config K} {env : Env} {args : Args}
    {st : MetaSt} {r : GitVersionRef} {vcfg : VersionConfig} (h1 : env.copy_ok r = true)
    (h2 : refVCfg env args r = some vcfg)
    (h3 : st.outputdirs.contains (cfg.smv_outputdir_format r vcfg) = false) :
    metaStep cfg env args st r =
      { metadata := dictInsert st.metadata r.name (entryOf cfg env args r)
        outputdirs := st.outputdirs ++ [odirOf cfg env args r]
        released := st.released ++
          (if cfg.smv_released_pattern r.refname then [r.name] else [])
        trace := st.trace ++ [Ev.copyTree r.refname r.commit (repopathOf env r),
          Ev.loadCfg (confpathOf env args r)] } := by
  have h3' : cfg.smv_outputdir_format r vcfg ∉ st.outputdirs :=
    fun hmem => by rw [contains_iff_mem.mpr hmem] at h3; exact Bool.true_eq_false.mp h3
  simp [metaStep, h1, h2, h3', entryOf, odirOf, mkEntry]

theorem metaLoop_cons {K : Type} (cfg : Config K) (env : Env) (args : Args)
    (r : GitVersionRef) (rs : List GitVersionRef) (st : MetaSt) :
    metaLoop cfg env args (r :: rs) st = metaLoop cfg env args rs (metaStep cfg env args st r) :=
  rfl

theorem metaLoop_characterization {K : Type} (cfg : Config K) (env : Env) (args : Args)
    (refs : List GitVersionRef) :
    ∀ st : MetaSt,
      (metaLoop cfg env args refs st).metadata
        = (survivors cfg env args refs st.outputdirs).foldl
            (fun m r => dictInsert m r.name (entryOf cfg env args r)) st.metadata
      ∧ (metaLoop cfg env args refs st).outputdirs
        = st.outputdirs ++ (survivors cfg env args refs st.outputdirs).map (odirOf cfg env args)
      ∧ (metaLoop cfg env args refs st).released
        = st.released ++ ((survivors cfg env args refs st.outputdirs).filter
            (fun r => cfg.smv_released_pattern r.refname)).map (fun r => r.name) := by
  induction refs with
  | nil => intro st; simp [metaLoop, survivors]
  | cons r rs ih =>
    intro st
    rw [metaLoop_cons]
    obtain ⟨hm, ho, hr⟩ := ih (metaStep cfg env args st r)
    by_cases hcopy : env.copy_ok r
    · cases hv : refVCfg env args r with
      | none =>
        rw [metaStep_config_fail hcopy hv] at hm ho hr ⊢
        refine ⟨?_, ?_, ?_⟩
        · rw [hm]; simp [survivors, hcopy, hv]
        · rw [ho]; simp [survivors, hcopy, hv]
        · rw [hr]; simp [survivors, hcopy, hv]
      | some vcfg =>
        by_cases hdup' : cfg.smv_outputdir_format r vcfg ∈ st.outputdirs
        · have hdup : st.outputdirs.contains (cfg.smv_outputdir_format r vcfg) = true :=
            contains_iff_mem.mpr hdup'
          rw [metaStep_dup_odir hcopy hv hdup] at hm ho hr ⊢
          refine ⟨?_, ?_, ?_⟩
          · rw [hm]; simp [survivors, hcopy, hv, hdup']
          · rw [ho]; simp [survivors, hcopy, hv, hdup']
          · rw [hr]; simp [survivors, hcopy, hv, hdup']
        · have hdup0 : st.outputdirs.contains (cfg.smv_outputdir_format r vcfg) = false :=
            contains_eq_false_of_not_mem hdup'
          have hodir : odirOf cfg env args r = cfg.smv_outputdir_format r vcfg := by
            simp [odirOf, hv]
          rw [metaStep_record hcopy hv hdup0] at hm ho hr ⊢
          refine ⟨?_, ?_, ?_⟩
          · rw [hm]
            simp [survivors, hcopy, hv, hdup', hodir]
          · rw [ho]
            simp [survivors, hcopy, hv, hdup', hodir]
          · rw [hr]
            simp only [survivors, hcopy, if_pos, hv, hdup', if_neg, hodir, List.filter_cons]
            by_cases hrel : cfg.smv_released_pattern r.refname <;> simp [hrel, hdup']
    · have hcopy0 : env.copy_ok r = false := by simpa using hcopy
      rw [metaStep_copy_fail hcopy0] at hm ho hr ⊢
      refine ⟨?_, ?_, ?_⟩
      · rw [hm]; simp [survivors, hcopy0]
      · rw [ho]; simp [survivors, hcopy0]
      · rw [hr]; simp [survivors, hcopy0]

/-! ### Trace lemmas -/

def evIsCopy : Ev → Bool
  | .copyTree _ _ _ => true
  | _ => false

def evIsBuild : Ev → Bool
  | .sphinxBuild _ _ _ _ => true
  | _ => false

def evIsRedirect : Ev → Bool
  | .redirectWrite _ _ => true
  | _ => false

theorem metaStep_trace {K : Type} (cfg : Config K) (env : Env) (args : Args)
    (st : MetaSt) (r : GitVersionRef) :
    (metaStep cfg env args st r).trace
        = st.trace ++ [Ev.copyTree r.refname r.commit (repopathOf env r)] ∨
      (metaStep cfg env args st r).trace
        = st.trace ++ [Ev.copyTree r.refname r.commit (repopathOf env r),
            Ev.loadCfg (confpathOf env args r)] := by
  unfold metaStep
  by_cases hcopy : env.copy_ok r
  · rw [if_pos hcopy]
    cases hv : refVCfg env args r with
    | none => right; simp [hv]
    | some vcfg =>
      right
      split
      · simp_all
      · simp [apply_ite MetaSt.trace]
  · rw [if_neg hcopy]
    left
    rfl

/-- Every ref gets exactly one `copyTree` attempt, in order, regardless of
which per-version steps fail. -/
theorem metaLoop_trace_copy {K : Type} (cfg : Config K) (env : Env) (args : Args)
    (refs : List GitVersionRef) :
    ∀ st : MetaSt,
      ((metaLoop cfg env args refs st).trace).filter evIsCopy
        = st.trace.filter evIsCopy
          ++ refs.map (fun r => Ev.copyTree r.refname r.commit (repopathOf env r)) := by
  induction refs with
  | nil => intro st; simp [metaLoop]
  | cons r rs ih =>
    intro st
    rw [metaLoop_cons, ih]
    rcases metaStep_trace cfg env args st r with h | h <;>
      rw [h] <;> simp [List.filter_append, evIsCopy]

/-- The metadata loop emits only `copyTree` and `loadCfg` events. -/
theorem metaLoop_trace_other {K : Type} (cfg : Config K) (env : Env) (args : Args)
    (refs : List GitVersionRef) (p : Ev → Bool)
    (h1 : ∀ a b c, p (.copyTree a b c) = false) (h2 : ∀ a, p (.loadCfg a) = false) :
    ∀ st : MetaSt,
      ((metaLoop cfg env args refs st).trace).filter p = st.trace.filter p := by
  induction refs with
  | nil => intro st; simp [metaLoop]
  | cons r rs ih =>
    intro st
    rw [metaLoop_cons, ih]
    rcases metaStep_trace cfg env args st r with h | h <;>
      rw [h] <;> simp [List.filter_append, h1, h2]

theorem devStage_ok {env : Env} {args : Args} {st st' : MetaSt}
    (h : devStage env args st = .ok st') :
    (st' = st) ∨
      (∃ dn, args.dev_name = some dn ∧ dn ≠ "" ∧
        st'.metadata = dictInsert st.metadata dn (devEntry env args dn) ∧
        st'.outputdirs = st.outputdirs ∧ st'.released = st.released ∧
        st'.trace = st.trace ++ [Ev.loadCfg (confdirAbs env args)]) := by
  unfold devStage at h
  split at h
  · exact Or.inl (by injection h with h; exact h.symm)
  · rename_i dn hdn
    split at h
    · exact Or.inl (by injection h with h; exact h.symm)
    · rename_i hemp
      split at h
      · exact absurd h (by simp)
      · injection h with h
        refine Or.inr ⟨dn, hdn, hemp, ?_, ?_, ?_, ?_⟩ <;> rw [← h]

theorem devStage_fail {env : Env} {args : Args} {st : MetaSt} {tr : List Ev}
    (h : devStage env args st = .fail tr) :
    ∃ dn, args.dev_name = some dn ∧ dn ≠ "" ∧
      env.load_config (confdirAbs env args) = none ∧
      tr = st.trace ++ [Ev.loadCfg (confdirAbs env args)] := by
  unfold devStage at h
  split at h
  · exact absurd h (by simp)
  · rename_i dn hdn
    split at h
    · exact absurd h (by simp)
    · rename_i hemp
      split at h
      · rename_i hload
        injection h with h
        exact ⟨dn, hdn, hemp, hload, h.symm⟩
      · exact absurd h (by simp)

/-! ### Build-loop lemmas -/

theorem buildLoop_trace_other (env : Env) (args : Args) (p : Ev → Bool)
    (h1 : ∀ d, p (.makeDirs d) = false)
    (h2 : ∀ a b c d, p (.sphinxBuild a b c d) = false) :
    ∀ (entries : List (String × MEntry)) (tr : List Ev),
      ((buildLoop env args entries tr).trace).filter p = tr.filter p := by
  intro entries
  induction entries with
  | nil => intro tr; rfl
  | cons q rest ih =>
    intro tr
    obtain ⟨vname, data⟩ := q
    unfold buildLoop
    by_cases hskip : buildSkip env args data
    · rw [if_pos hskip]
      exact ih tr
    · rw [if_neg hskip]
      by_cases hok : env.build_ok vname
      · rw [if_pos hok, ih]
        simp [List.filter_append, h1, h2]
      · rw [if_neg hok]
        simp [List.filter_append, h1, h2]

/-- In a run in which every launched build succeeds, the build loop launches
exactly one subprocess per non-skipped entry, in the order of the metadata. -/
theorem buildLoop_ok_builds (env : Env) (args : Args) :
    ∀ (entries : List (String × MEntry)) (tr : List Ev),
      (buildLoop env args entries tr).result = .ok 0 →
      ((buildLoop env args entries tr).trace).filter evIsBuild
        = tr.filter evIsBuild
          ++ (entries.filter (fun q => !(buildSkip env args q.2))).map
              (fun q => Ev.sphinxBuild q.1 q.2.sourcedir q.2.outputdir
                (confdirAbs env args)) := by
  intro entries
  induction entries with
  | nil => intro tr _; simp [buildLoop]
  | cons q rest ih =>
    intro tr hres
    obtain ⟨vname, data⟩ := q
    unfold buildLoop at hres ⊢
    by_cases hskip : buildSkip env args data
    · rw [if_pos hskip] at hres ⊢
      rw [ih tr hres]
      simp [List.filter_cons, hskip]
    · rw [if_neg hskip] at hres ⊢
      by_cases hok : env.build_ok vname
      · rw [if_pos hok] at hres ⊢
        rw [ih _ hres]
        simp [List.filter_append, List.filter_cons, hskip, evIsBuild]
      · rw [if_neg hok] at hres
        simp at hres

/-- If every non-skipped entry's build succeeds, the loop returns exit
code 0. -/
theorem buildLoop_all_ok (env : Env) (args : Args) :
    ∀ (entries : List (String × MEntry)),
      (∀ q ∈ entries, buildSkip env args q.2 = false → env.build_ok q.1 = true) →
      ∀ tr : List Ev, (buildLoop env args entries tr).result = .ok 0 := by
  intro entries
  induction entries with
  | nil => intro _ tr; rfl
  | cons q rest ih =>
    intro h tr
    obtain ⟨vname, data⟩ := q
    unfold buildLoop
    by_cases hskip : buildSkip env args data
    · rw [if_pos hskip]
      exact ih (fun p hp => h p (List.mem_cons_of_mem _ hp)) tr
    · rw [if_neg hskip]
      have hok : env.build_ok vname = true :=
        h (vname, data) (List.mem_cons_self _ _) (by simpa using hskip)
      rw [if_pos hok]
      exact ih (fun p hp => h p (List.mem_cons_of_mem _ hp)) _

/-- A failing build aborts the loop at that entry: the error is reported and
no later entry is processed. -/
theorem buildLoop_fail (env : Env) (args : Args) :
    ∀ (entries : List (String × MEntry)) (tr : List Ev) (e : MainError),
      (buildLoop env args entries tr).result = .error e →
      ∃ vname, e = .buildFailure vname ∧ env.build_ok vname = false := by
  intro entries
  induction entries with
  | nil => intro tr e h; simp [buildLoop] at h
  | cons q rest ih =>
    intro tr e h
    obtain ⟨vname, data⟩ := q
    unfold buildLoop at h
    by_cases hskip : buildSkip env args data
    · rw [if_pos hskip] at h
      exact ih _ _ h
    · rw [if_neg hskip] at h
      by_cases hok : env.build_ok vname
      · rw [if_pos hok] at h
        exact ih _ _ h
      · rw [if_neg hok] at h
        injection h with h
        exact ⟨vname, h.symm, by simpa using hok⟩

/-! ### Output-directory uniqueness among the surviving refs -/

theorem survivors_odirs_fresh {K : Type} (cfg : Config K) (env : Env) (args : Args) :
    ∀ (refs : List GitVersionRef) (used : List String),
      (((survivors cfg env args refs used).map (odirOf cfg env args)).Nodup) ∧
      (∀ r ∈ survivors cfg env args refs used, odirOf cfg env args r ∉ used) := by
  intro refs
  induction refs with
  | nil => intro used; simp [survivors]
  | cons r rs ih =>
    intro used
    by_cases hcopy : env.copy_ok r
    · cases hv : refVCfg env args r with
      | none =>
        rw [show survivors cfg env args (r :: rs) used = survivors cfg env args rs used from by
          simp [survivors, hcopy, hv]]
        exact ih used
      | some vcfg =>
        by_cases hdup' : cfg.smv_outputdir_format r vcfg ∈ used
        · rw [show survivors cfg env args (r :: rs) used = survivors cfg env args rs used from by
            simp [survivors, hcopy, hv, hdup']]
          exact ih used
        · have hodir : odirOf cfg env args r = cfg.smv_outputdir_format r vcfg := by
            simp [odirOf, hv]
          rw [show survivors cfg env args (r :: rs) used
              = r :: survivors cfg env args rs (used ++ [cfg.smv_outputdir_format r vcfg]) from by
            simp [survivors, hcopy, hv, hdup']]
          obtain ⟨ihn, ihf⟩ := ih (used ++ [cfg.smv_outputdir_format r vcfg])
          refine ⟨?_, ?_⟩
          · rw [List.map_cons, List.nodup_cons]
            refine ⟨?_, ihn⟩
            intro hmem
            rcases List.mem_map.mp hmem with ⟨r', hr', heq⟩
            have := ihf r' hr'
            rw [heq] at this
            exact this (by simp [hodir])
          · intro r' hr'
            rcases List.mem_cons.mp hr' with h | h
            · subst h
              rw [hodir]
              exact hdup'
            · intro hmem
              exact ihf r' h (by simp [hmem])
    · rw [show survivors cfg env args (r :: rs) used = survivors cfg env args rs used from by
        simp [survivors, hcopy]]
      exact ih used

/-! ### Ordering lemmas -/

theorem symver_isTotal {K : Type} [LinearOrder K] (key : String → Option K) :
    IsTotal GitVersionRef (symverLe key) :=
  ⟨fun a b => optKeyLeB_total _ _⟩

theorem symver_isTrans {K : Type} [LinearOrder K] (key : String → Option K) :
    IsTrans GitVersionRef (symverLe key) :=
  ⟨fun a b c h1 h2 => optKeyLeB_trans _ _ _ h1 h2⟩

theorem tuple_isTotal (prefer_remote : Bool) : IsTotal GitVersionRef (refTupleLe prefer_remote) :=
  ⟨refTupleLe_total prefer_remote⟩

theorem tuple_isTrans (prefer_remote : Bool) : IsTrans GitVersionRef (refTupleLe prefer_remote) :=
  ⟨fun a b c => refTupleLe_trans prefer_remote a b c⟩

theorem orderRefs_eq_none {K : Type} [LinearOrder K] (cfg : Config K)
    (l : List GitVersionRef) :
    orderRefs cfg l = none ↔ ∃ x ∈ l, cfg.smv_symver_key x.refname = none := by
  constructor
  · intro h
    unfold orderRefs at h
    split at h
    · exact absurd h (by simp)
    · rename_i hall
      rw [List.all_eq_true] at hall
      push_neg at hall
      obtain ⟨x, hx, hnone⟩ := hall
      exact ⟨x, hx, by simpa using hnone⟩
  · rintro ⟨x, hx, hnone⟩
    unfold orderRefs
    rw [if_neg]
    intro hall
    rw [List.all_eq_true] at hall
    have := hall x hx
    simp [hnone] at this

theorem orderRefs_some_spec {K : Type} [LinearOrder K] {cfg : Config K}
    {l out : List GitVersionRef} (h : orderRefs cfg l = some out) :
    out = List.insertionSort (symverLe cfg.smv_symver_key) (tupleSorted cfg l) ∧
      ∀ x ∈ l, (cfg.smv_symver_key x.refname).isSome := by
  unfold orderRefs at h
  split at h
  · rename_i hall
    rw [List.all_eq_true] at hall
    exact ⟨by injection h with h; exact h.symm, fun x hx => hall x hx⟩
  · exact absurd h (by simp)

theorem orderRefs_perm {K : Type} [LinearOrder K] {cfg : Config K}
    {l out : List GitVersionRef} (h : orderRefs cfg l = some out) : out.Perm l := by
  rw [(orderRefs_some_spec h).1]
  exact (List.perm_insertionSort _ _).trans (List.perm_insertionSort _ _)

theorem orderRefs_sorted {K : Type} [LinearOrder K] {cfg : Config K}
    {l out : List GitVersionRef} (h : orderRefs cfg l = some out) :
    out.Pairwise (symverLe cfg.smv_symver_key) := by
  haveI := symver_isTotal cfg.smv_symver_key
  haveI := symver_isTrans cfg.smv_symver_key
  rw [(orderRefs_some_spec h).1]
  exact List.sorted_insertionSort _ _

theorem orderRefs_tie {K : Type} [LinearOrder K] {cfg : Config K}
    {l out : List GitVersionRef} (h : orderRefs cfg l = some out) :
    out.Pairwise (fun a b => symverLe cfg.smv_symver_key b a →
      refTupleLe cfg.smv_prefer_remote_refs a b) := by
  haveI := tuple_isTotal cfg.smv_prefer_remote_refs
  haveI := tuple_isTrans cfg.smv_prefer_remote_refs
  rw [(orderRefs_some_spec h).1]
  exact pairwise_insertionSort_tie _ _ _ (List.sorted_insertionSort _ l)

/-! ### String and path lemmas -/

theorem string_append_cancel_left {x y z : String} (h : x ++ y = x ++ z) : y = z := by
  apply String.ext
  have h2 := congrArg String.data h
  rw [String.data_append, String.data_append] at h2
  exact List.append_cancel_left h2

theorem pjoin_right_inj {a b1 b2 : String} (h : pjoin a b1 = pjoin a b2) : b1 = b2 :=
  string_append_cancel_left (x := a ++ "/") h

theorem strStartsWith_append (x y : String) : strStartsWith (x ++ y) x = true := by
  unfold strStartsWith
  rw [List.isPrefixOf_iff_prefix, String.data_append]
  exact List.prefix_append _ _

theorem pjoin_ne_of_not_under {t c g : String}
    (h : strStartsWith g (t ++ "/") = false) : pjoin t c ≠ g := by
  intro he
  rw [← he] at h
  unfold pjoin at h
  rw [strStartsWith_append] at h
  exact Bool.true_eq_false.mp h

/-! ### Unfolding `main` under explicit stage outcomes -/

theorem mainModel_run {K : Type} [LinearOrder K] (cfg : Config K) (env : Env) (args : Args)
    (srefs : List GitVersionRef) (st : MetaSt)
    (h0 : args.noconfig = false) (h1 : mainSorted cfg env args = some srefs)
    (h2 : devStage env args (metaState cfg env args srefs) = .ok st) :
    mainModel cfg env args = finishMain env args st := by
  simp [mainModel, h0, h1, h2]

theorem mainModel_sort_fail {K : Type} [LinearOrder K] (cfg : Config K) (env : Env)
    (args : Args) (h0 : args.noconfig = false) (h1 : mainSorted cfg env args = none) :
    mainModel cfg env args = ⟨initTrace env args, .error .sortKeyFailure⟩ := by
  simp [mainModel, h0, h1]

theorem mainModel_dev_fail {K : Type} [LinearOrder K] (cfg : Config K) (env : Env)
    (args : Args) (srefs : List GitVersionRef) (tr : List Ev)
    (h0 : args.noconfig = false) (h1 : mainSorted cfg env args = some srefs)
    (h2 : devStage env args (metaState cfg env args srefs) = .fail tr) :
    mainModel cfg env args = ⟨tr, .error .devConfigFailure⟩ := by
  simp [mainModel, h0, h1, h2]

theorem finishMain_dump (env : Env) (args : Args) (st : MetaSt)
    (hdump : args.dump_metadata = true) :
    finishMain env args st = ⟨st.trace, .ok 0⟩ := by
  simp [finishMain, hdump]

theorem finishMain_empty (env : Env) (args : Args) (st : MetaSt)
    (hdump : args.dump_metadata = false) (hemp : st.metadata = []) :
    finishMain env args st = ⟨st.trace, .ok 2⟩ := by
  simp [finishMain, hdump, hemp]

theorem finishMain_build (env : Env) (args : Args) (st : MetaSt)
    (hdump : args.dump_metadata = false) (hne : st.metadata ≠ []) :
    finishMain env args st = buildLoop env args st.metadata (st.trace ++
      [Ev.redirectWrite (env.abspath (pjoin (sourcedirRel env args) "_static/index.html"))
        (generateHtmlRedirectionPage (redirTarget st.released)), Ev.metadataWrite]) := by
  simp only [finishMain, hdump, Bool.false_eq_true, if_neg, not_false_iff]
  rw [if_neg (by simpa [List.isEmpty_iff] using hne)]

/-! ### Emptiness and pre-build-trace helpers -/

theorem dictInsert_ne_nil {β : Type} (m : List (String × β)) (k : String) (v : β) :
    dictInsert m k v ≠ [] := by
  unfold dictInsert
  split
  · rename_i hc
    intro h
    rw [List.map_eq_nil_iff.mp h] at hc
    simp [List.contains] at hc
  · simp

theorem foldl_dictInsert_ne_nil {β : Type} (e : GitVersionRef → β) :
    ∀ (rs : List GitVersionRef) (m : List (String × β)), m ≠ [] →
      rs.foldl (fun m r => dictInsert m r.name (e r)) m ≠ [] := by
  intro rs
  induction rs with
  | nil => intro m h; exact h
  | cons r rs ih =>
    intro m _
    rw [List.foldl_cons]
    exact ih _ (dictInsert_ne_nil _ _ _)

theorem foldl_dictInsert_nil_iff {β : Type} (e : GitVersionRef → β)
    (rs : List GitVersionRef) :
    rs.foldl (fun m r => dictInsert m r.name (e r)) [] = [] ↔ rs = [] := by
  cases rs with
  | nil => simp
  | cons r rs =>
    rw [List.foldl_cons]
    constructor
    · intro h
      exact absurd h (foldl_dictInsert_ne_nil e rs _ (dictInsert_ne_nil _ _ _))
    · intro h
      exact absurd h (by simp)

theorem devStage_empty {env : Env} {args : Args} {st st' : MetaSt}
    (h : devStage env args st = .ok st') (he : st'.metadata = []) :
    st.metadata = [] ∧ optTruthy args.dev_name = false := by
  unfold devStage at h
  split at h
  · rename_i hdn
    injection h with h
    exact ⟨h ▸ he, by simp [optTruthy, hdn]⟩
  · rename_i dn hdn
    split at h
    · rename_i hemp
      injection h with h
      exact ⟨h ▸ he, by simp [optTruthy, hdn, hemp]⟩
    · split at h
      · exact absurd h (by simp)
      · injection h with h
        rw [← h] at he
        exact absurd (show dictInsert st.metadata dn (devEntry env args dn) = [] from he)
          (dictInsert_ne_nil _ _ _)

/-- The trace accumulated before the build loop contains only config loads,
ref listing, copies and per-version config loads. -/
theorem preTrace_filter {K : Type} [LinearOrder K] (cfg : Config K) (env : Env)
    (args : Args) (srefs : List GitVersionRef) (st : MetaSt)
    (h2 : devStage env args (metaState cfg env args srefs) = .ok st)
    (p : Ev → Bool) (hc : ∀ a b c, p (.copyTree a b c) = false)
    (hl : ∀ a, p (.loadCfg a) = false)
    (hg : ∀ a, p (.loadGlobalConfig a) = false) (hr : p .readGitRefs = false) :
    st.trace.filter p = [] := by
  have hmeta : ((metaState cfg env args srefs).trace).filter p = [] := by
    unfold metaState
    rw [metaLoop_trace_other cfg env args srefs p hc hl]
    simp [initTrace, hg, hr]
  rcases devStage_ok h2 with h | ⟨dn, -, -, -, -, -, htr⟩
  · rw [h]
    exact hmeta
  · rw [htr, List.filter_append, hmeta]
    simp [hl]

/-! ### Concrete fixtures used to instantiate the theorems -/

def exRef1 : GitVersionRef :=
  ⟨"1.0", "c1", "tags", false, "refs/tags/1.0", 10⟩

def exRef2 : GitVersionRef :=
  ⟨"2.0", "c2", "heads", false, "refs/heads/2.0", 20⟩

def exConfig : Config Nat :=
  { smv_tag_whitelist := some (fun _ => true)
    smv_branch_whitelist := some (fun _ => true)
    smv_remote_whitelist := none
    smv_released_pattern := fun s => strStartsWith s "refs/tags/"
    smv_outputdir_format := fun r _ => r.name
    smv_prefer_remote_refs := false
    smv_symver_key := fun s =>
      if s = "refs/tags/1.0" then some 10
      else if s = "refs/heads/2.0" then some 20 else none }

def exEnv : Env :=
  { all_refs := [exRef2, exRef1]
    gitroot := "/repo"
    tmp := "/tmpx"
    copy_ok := fun _ => true
    load_config := fun _ => some ⟨"0.1"⟩
    build_ok := fun _ => true
    isdir := fun _ => false
    file_exists := fun _ _ => true
    abspath := fun s => s
    relpath := fun p _ => p }

def exArgs : Args :=
  { sourcedir := "docs"
    outputdir := "out"
    confdir := none
    noconfig := false
    dump_metadata := false
    skip_if_outputdir_exists := false
    dev_name := none
    dev_path := none }

/-! ### The claims -/

/-- C3: version-ref selection is sequential filtering: a ref is selected iff
it is a whitelisted tag, a whitelisted local branch, or a remote branch with
a non-None matching remote whitelist and matching branch whitelist; a `None`
whitelist for the relevant kind skips the ref, and a whitelisted ref is
still skipped when any required file other than `"."` does not exist at the
ref. -/
theorem spec_c3 (tagWL branchWL remoteWL : Option (String → Bool))
    (fileEx : String → String → Bool) (files : List String)
    (refs : List GitVersionRef) (ref : GitVersionRef)
    (hwf : ref.is_remote = strStartsWith ref.source "remotes/") :
    ref ∈ getRefs tagWL branchWL remoteWL fileEx files refs ↔
      ref ∈ refs ∧
      ((ref.source = "tags" ∧ ∃ p, tagWL = some p ∧ p ref.name = true) ∨
       (ref.source = "heads" ∧ ∃ p, branchWL = some p ∧ p ref.name = true) ∨
       (ref.is_remote = true ∧ ∃ pr pb, remoteWL = some pr ∧ branchWL = some pb ∧
          pr (partitionAfterSlash ref.source) = true ∧ pb ref.name = true)) ∧
      (∀ f ∈ files, f ≠ "." → fileEx ref.refname f = true) := by
  have hmatch : ∀ (wl : Option (String → Bool)) (s : String),
      matchOpt wl s = true ↔ ∃ p, wl = some p ∧ p s = true := by
    intro wl s
    cases wl <;> simp [matchOpt]
  have hfiles : hasRequiredFiles fileEx files ref.refname = true ↔
      (∀ f ∈ files, f ≠ "." → fileEx ref.refname f = true) := by
    unfold hasRequiredFiles
    rw [List.isEmpty_iff, List.filter_eq_nil_iff]
    constructor
    · intro h f hf hne
      have := h f hf
      simp only [Bool.and_eq_true, bne_iff_ne, Bool.not_eq_true'] at this
      by_cases hex : fileEx ref.refname f = true
      · exact hex
      · exact absurd ⟨hne, by simpa using hex⟩ this
    · intro h f hf
      simp only [Bool.and_eq_true, bne_iff_ne, Bool.not_eq_true']
      rintro ⟨hne, hnex⟩
      rw [h f hf hne] at hnex
      exact Bool.true_eq_false.mp hnex
  have hkeep : keepRef tagWL branchWL remoteWL ref = true ↔
      ((ref.source = "tags" ∧ ∃ p, tagWL = some p ∧ p ref.name = true) ∨
       (ref.source = "heads" ∧ ∃ p, branchWL = some p ∧ p ref.name = true) ∨
       (ref.is_remote = true ∧ ∃ pr pb, remoteWL = some pr ∧ branchWL = some pb ∧
          pr (partitionAfterSlash ref.source) = true ∧ pb ref.name = true)) := by
    constructor
    · intro hk
      unfold keepRef at hk
      by_cases ht : ref.source = "tags"
      · rw [if_pos ht] at hk
        exact Or.inl ⟨ht, (hmatch _ _).mp hk⟩
      · rw [if_neg ht] at hk
        by_cases hh : ref.source = "heads"
        · rw [if_pos hh] at hk
          exact Or.inr (Or.inl ⟨hh, (hmatch _ _).mp hk⟩)
        · rw [if_neg hh] at hk
          by_cases hr : (ref.is_remote && remoteWL.isSome) = true
          · rw [if_pos hr] at hk
            rw [Bool.and_eq_true] at hr hk
            rcases (hmatch _ _).mp hk.1 with ⟨pr, hpr, hprv⟩
            rcases (hmatch _ _).mp hk.2 with ⟨pb, hpb, hpbv⟩
            exact Or.inr (Or.inr ⟨hr.1, pr, pb, hpr, hpb, hprv, hpbv⟩)
          · rw [if_neg hr] at hk
            exact absurd hk (by simp)
    · rintro (⟨ht, p, hp, hv⟩ | ⟨hh, p, hp, hv⟩ | ⟨hrem, pr, pb, hpr, hpb, hv1, hv2⟩)
      · unfold keepRef
        rw [if_pos ht, hp]
        exact hv
      · unfold keepRef
        have ht : ¬ ref.source = "tags" := by
          rw [hh]; decide
        rw [if_neg ht, if_pos hh, hp]
        exact hv
      · unfold keepRef
        have hs : strStartsWith ref.source "remotes/" = true := by
          rw [← hwf]; exact hrem
        have ht : ¬ ref.source = "tags" := by
          intro hc; rw [hc] at hs; exact absurd hs (by decide)
        have hh : ¬ ref.source = "heads" := by
          intro hc; rw [hc] at hs; exact absurd hs (by decide)
        rw [if_neg ht, if_neg hh, if_pos (by simp [hrem, hpr]), hpr, hpb]
        simp [matchOpt, hv1, hv2]
  unfold getRefs
  rw [List.mem_filter, Bool.and_eq_true]
  constructor
  · rintro ⟨hm, hk, hf⟩
    exact ⟨hm, hkeep.mp hk, hfiles.mp hf⟩
  · rintro ⟨hm, hk, hf⟩
    exact ⟨hm, hkeep.mpr hk, hfiles.mpr hf⟩

theorem spec_c3_witness :
    exRef1 ∈ getRefs (some fun s => s == "1.0") (some fun _ => false) none
      (fun _ _ => true) ["docs", "docs/conf.py"] [exRef1, exRef2] :=
  (spec_c3 (some fun s => s == "1.0") (some fun _ => false) none
      (fun _ _ => true) ["docs", "docs/conf.py"] [exRef1, exRef2] exRef1 (by decide)).mpr
    ⟨by decide,
     Or.inl ⟨rfl, ⟨(fun s => s == "1.0"), rfl, by decide⟩⟩,
     fun f _ _ => rfl⟩

/-- C4: the refs are first sorted (stably) by the key tuple
`(is_remote, name, commit, source, is_remote, refname, creatordate)` — with
the leading `is_remote` negated when `smv_prefer_remote_refs` is set — and
then stably re-sorted by the parsed version number of the refname, so the
final order is a permutation of the selection, ascending in the version
number, with the tuple order breaking version-number ties. -/
theorem spec_c4 {K : Type} [LinearOrder K] (cfg : Config K)
    (l out : List GitVersionRef) (h : orderRefs cfg l = some out) :
    out.Perm l ∧
    out.Pairwise (fun a b => ∀ ka kb, cfg.smv_symver_key a.refname = some ka →
      cfg.smv_symver_key b.refname = some kb →
      ka ≤ kb ∧ (kb ≤ ka → refTupleLe cfg.smv_prefer_remote_refs a b)) := by
  refine ⟨orderRefs_perm h, ?_⟩
  have h12 := (orderRefs_sorted h).and (orderRefs_tie h)
  apply h12.imp
  rintro a b ⟨hs, ht⟩ ka kb hka hkb
  have hle : ka ≤ kb := by
    unfold symverLe at hs
    rw [hka, hkb] at hs
    simpa [optKeyLeB] using hs
  refine ⟨hle, fun hba => ht ?_⟩
  unfold symverLe
  rw [hka, hkb]
  simpa [optKeyLeB] using hba

theorem spec_c4_witness :
    ([exRef1, exRef2] : List GitVersionRef).Perm [exRef2, exRef1] ∧
    List.Pairwise (fun a b => ∀ ka kb, exConfig.smv_symver_key a.refname = some ka →
      exConfig.smv_symver_key b.refname = some kb →
      ka ≤ kb ∧ (kb ≤ ka → refTupleLe exConfig.smv_prefer_remote_refs a b))
      [exRef1, exRef2] :=
  spec_c4 exConfig [exRef2, exRef1] [exRef1, exRef2] (by decide)

/-- C8: when any selected ref's refname yields no parsed version number
(no regex match, or an unparseable capture such as `"."`), the sort-key
expression raises and `main` aborts before copying or building anything:
the run ends with the sort-key error and the trace holds only the config
load and the ref listing. -/
theorem spec_c8 {K : Type} [LinearOrder K] (cfg : Config K) (env : Env) (args : Args)
    (h0 : args.noconfig = false)
    (hex : ∃ r ∈ mainRefs cfg env args, cfg.smv_symver_key r.refname = none) :
    mainModel cfg env args =
      ⟨[Ev.loadGlobalConfig (confdirAbs env args), Ev.readGitRefs],
        .error .sortKeyFailure⟩ := by
  have h1 : mainSorted cfg env args = none := by
    unfold mainSorted
    exact (orderRefs_eq_none cfg _).mpr hex
  rw [mainModel_sort_fail cfg env args h0 h1]
  rfl

def exConfigNoKey : Config Nat :=
  { exConfig with smv_symver_key := fun _ => none }

theorem spec_c8_witness :
    mainModel exConfigNoKey exEnv exArgs =
      ⟨[Ev.loadGlobalConfig "docs", Ev.readGitRefs], .error .sortKeyFailure⟩ := by
  have h := spec_c8 exConfigNoKey exEnv exArgs rfl ⟨exRef1, by decide, rfl⟩
  rw [h]
  rfl

def exEnvCopyFail : Env :=
  { exEnv with copy_ok := fun r => r.commit != "c1" }

def exEnvBuildFail : Env :=
  { exEnv with build_ok := fun n => n != "1.0" }

/-- C9: the exit codes of `main` partition its outcomes: `1` immediately
under `-C` with an empty trace (nothing read), `0` under `--dump-metadata`
with nothing built, `2` for empty metadata (no surviving refs and no
development version requested), and `0` after a run in which every
launched build succeeds. -/
theorem spec_c9 {K : Type} [LinearOrder K] (cfg : Config K) (env : Env) (args : Args) :
    (args.noconfig = true → mainModel cfg env args = ⟨[], .ok 1⟩) ∧
    (∀ srefs st, args.noconfig = false →
      mainSorted cfg env args = some srefs →
      devStage env args (metaState cfg env args srefs) = .ok st →
      args.dump_metadata = true →
      mainModel cfg env args = ⟨st.trace, .ok 0⟩ ∧
        ((mainModel cfg env args).trace).filter evIsBuild = []) ∧
    (∀ srefs st, args.noconfig = false →
      mainSorted cfg env args = some srefs →
      devStage env args (metaState cfg env args srefs) = .ok st →
      args.dump_metadata = false → st.metadata = [] →
      (mainModel cfg env args).result = .ok 2 ∧
        survivors cfg env args srefs [] = [] ∧ optTruthy args.dev_name = false) ∧
    (∀ srefs st, args.noconfig = false →
      mainSorted cfg env args = some srefs →
      devStage env args (metaState cfg env args srefs) = .ok st →
      args.dump_metadata = false → st.metadata ≠ [] →
      (∀ q ∈ st.metadata, buildSkip env args q.2 = false → env.build_ok q.1 = true) →
      (mainModel cfg env args).result = .ok 0) := by
  refine ⟨?_, ?_, ?_, ?_⟩
  · intro h
    simp [mainModel, h]
  · intro srefs st h0 h1 h2 hdump
    rw [mainModel_run cfg env args srefs st h0 h1 h2, finishMain_dump env args st hdump]
    exact ⟨rfl, preTrace_filter cfg env args srefs st h2 evIsBuild
      (fun _ _ _ => rfl) (fun _ => rfl) (fun _ => rfl) rfl⟩
  · intro srefs st h0 h1 h2 hdump hemp
    rw [mainModel_run cfg env args srefs st h0 h1 h2, finishMain_empty env args st hdump hemp]
    obtain ⟨hmeta0, hdev⟩ := devStage_empty h2 hemp
    refine ⟨rfl, ?_, hdev⟩
    obtain ⟨hm, -, -⟩ := metaLoop_characterization cfg env args srefs ⟨[], [], [], initTrace env args⟩
    have : (metaState cfg env args srefs).metadata = [] := hmeta0
    rw [metaState] at this
    rw [hm] at this
    exact (foldl_dictInsert_nil_iff _ _).mp this
  · intro srefs st h0 h1 h2 hdump hne hall
    rw [mainModel_run cfg env args srefs st h0 h1 h2, finishMain_build env args st hdump hne]
    exact buildLoop_all_ok env args st.metadata hall _

theorem spec_c9_witness :
    mainModel exConfig exEnv { exArgs with noconfig := true } = ⟨[], .ok 1⟩ ∧
    (mainModel exConfig exEnv exArgs).result = .ok 0 := by
  constructor
  · exact (spec_c9 exConfig exEnv { exArgs with noconfig := true }).1 rfl
  · exact (spec_c9 exConfig exEnv exArgs).2.2.2
      [exRef1, exRef2] (metaState exConfig exEnv exArgs [exRef1, exRef2])
      rfl (by decide) (by decide) rfl (by decide) (by decide)

/-- C1 (amended): a failure while copying the git tree or loading the
per-version configuration for a version causes only that version to be
skipped with an error logged; the loop continues with the remaining refs
unchanged and nothing is retried — every ref gets exactly one copy attempt.
(The original claim's further assertion that no failure of one version's
processing aborts the others is false for the documentation-compiler
subprocess, whose failure propagates out of `main`; see the
counterexample.) -/
theorem spec_c1_amended {K : Type} [LinearOrder K] (cfg : Config K) (env : Env)
    (args : Args) :
    (∀ r rs st, metaLoop cfg env args (r :: rs) st
        = metaLoop cfg env args rs (metaStep cfg env args st r)) ∧
    (∀ st r, env.copy_ok r = false → metaStep cfg env args st r
        = { st with trace := st.trace
            ++ [Ev.copyTree r.refname r.commit (repopathOf env r)] }) ∧
    (∀ st r, env.copy_ok r = true → refVCfg env args r = none → metaStep cfg env args st r
        = { st with trace := st.trace
            ++ [Ev.copyTree r.refname r.commit (repopathOf env r),
              Ev.loadCfg (confpathOf env args r)] }) ∧
    (∀ refs st, ((metaLoop cfg env args refs st).trace).filter evIsCopy
        = st.trace.filter evIsCopy
          ++ refs.map (fun r => Ev.copyTree r.refname r.commit (repopathOf env r))) :=
  ⟨metaLoop_cons cfg env args,
   fun _ _ h => metaStep_copy_fail h,
   fun _ _ h1 h2 => metaStep_config_fail h1 h2,
   fun refs st => metaLoop_trace_copy cfg env args refs st⟩

theorem spec_c1_witness :
    metaStep exConfig exEnvCopyFail exArgs ⟨[], [], [], []⟩ exRef1
      = ⟨[], [], [], [Ev.copyTree "refs/tags/1.0" "c1" "/tmpx/c1"]⟩ ∧
    ((metaLoop exConfig exEnvCopyFail exArgs [exRef1, exRef2] ⟨[], [], [], []⟩).trace).filter
        evIsCopy
      = [Ev.copyTree "refs/tags/1.0" "c1" "/tmpx/c1",
         Ev.copyTree "refs/heads/2.0" "c2" "/tmpx/c2"] := by
  constructor
  · rw [(spec_c1_amended exConfig exEnvCopyFail exArgs).2.1 ⟨[], [], [], []⟩ exRef1 (by decide)]
    decide
  · rw [(spec_c1_amended exConfig exEnvCopyFail exArgs).2.2.2 [exRef1, exRef2] ⟨[], [], [], []⟩]
    decide

/-- C1 counterexample: with two selected versions and a compiler subprocess
that fails for "1.0", `main` aborts with the propagated error; version
"2.0" is present in the metadata and not skipped, yet no build subprocess
is ever launched for it — refuting the claim that no failure of one
version's processing aborts the processing of the others. -/
theorem spec_c1_counterexample :
    (mainModel exConfig exEnvBuildFail exArgs).result = .error (.buildFailure "1.0") ∧
    ("2.0", entryOf exConfig exEnvBuildFail exArgs exRef2) ∈
      (metaState exConfig exEnvBuildFail exArgs [exRef1, exRef2]).metadata ∧
    buildSkip exEnvBuildFail exArgs (entryOf exConfig exEnvBuildFail exArgs exRef2) = false ∧
    ((mainModel exConfig exEnvBuildFail exArgs).trace).filter evIsBuild
      = [Ev.sphinxBuild "1.0" "/tmpx/c1/docs" "out/1.0" "docs"] :=
  ⟨rfl, by decide, by decide, by decide⟩

theorem metaState_keys_nodup {K : Type} [LinearOrder K] (cfg : Config K) (env : Env)
    (args : Args) (srefs : List GitVersionRef) :
    (((metaState cfg env args srefs).metadata).map Prod.fst).Nodup := by
  obtain ⟨hm, -, -⟩ := metaLoop_characterization cfg env args srefs ⟨[], [], [], initTrace env args⟩
  rw [metaState, hm]
  exact foldl_dictInsert_keys_nodup _ _ [] (by simp)

theorem devSt_keys_nodup {K : Type} [LinearOrder K] {cfg : Config K} {env : Env}
    {args : Args} {srefs : List GitVersionRef} {st : MetaSt}
    (h2 : devStage env args (metaState cfg env args srefs) = .ok st) :
    ((st.metadata).map Prod.fst).Nodup := by
  rcases devStage_ok h2 with h | ⟨dn, -, -, hmeta, -, -, -⟩
  · rw [h]
    exact metaState_keys_nodup cfg env args srefs
  · rw [hmeta]
    exact keys_dictInsert_nodup _ _ _ (metaState_keys_nodup cfg env args srefs)

/-- C7: the build orchestration is a sequential loop launching the external
documentation compiler once per metadata entry: in a run that completes
with exit code 0 (and is not a metadata dump), the launched subprocesses
are exactly one per non-skipped metadata entry, in the metadata's order,
and the metadata's keys are pairwise distinct, so no version is built more
than once. -/
theorem spec_c7 {K : Type} [LinearOrder K] (cfg : Config K) (env : Env) (args : Args)
    (srefs : List GitVersionRef) (st : MetaSt)
    (h0 : args.noconfig = false) (h1 : mainSorted cfg env args = some srefs)
    (h2 : devStage env args (metaState cfg env args srefs) = .ok st)
    (h3 : args.dump_metadata = false)
    (h4 : (mainModel cfg env args).result = .ok 0) :
    ((mainModel cfg env args).trace).filter evIsBuild
      = (st.metadata.filter (fun q => !(buildSkip env args q.2))).map
          (fun q => Ev.sphinxBuild q.1 q.2.sourcedir q.2.outputdir
            (confdirAbs env args)) ∧
    ((st.metadata).map Prod.fst).Nodup := by
  refine ⟨?_, devSt_keys_nodup h2⟩
  rw [mainModel_run cfg env args srefs st h0 h1 h2] at h4 ⊢
  by_cases hemp : st.metadata = []
  · rw [finishMain_empty env args st h3 hemp] at h4
    exact absurd (by injection h4) (by simp)
  · rw [finishMain_build env args st h3 hemp] at h4 ⊢
    rw [buildLoop_ok_builds env args st.metadata _ h4, List.filter_append,
      preTrace_filter cfg env args srefs st h2 evIsBuild
        (fun _ _ _ => rfl) (fun _ => rfl) (fun _ => rfl) rfl]
    rfl

theorem spec_c7_witness :
    ((mainModel exConfig exEnv exArgs).trace).filter evIsBuild
      = (((metaState exConfig exEnv exArgs [exRef1, exRef2]).metadata).filter
          (fun q => !(buildSkip exEnv exArgs q.2))).map
          (fun q => Ev.sphinxBuild q.1 q.2.sourcedir q.2.outputdir
            (confdirAbs exEnv exArgs)) ∧
    (((metaState exConfig exEnv exArgs [exRef1, exRef2]).metadata).map Prod.fst).Nodup :=
  spec_c7 exConfig exEnv exArgs [exRef1, exRef2]
    (metaState exConfig exEnv exArgs [exRef1, exRef2])
    rfl (by decide) (by decide) rfl rfl

/-- C2: once a run reaches the landing-page stage (the sort succeeded, the
development config loaded if requested, the run is not a metadata dump and
the metadata is nonempty), exactly one landing-page HTML file is written;
its content is the redirect page for the latest release: the released
versions are exactly the surviving selected refs whose refname matches
`smv_released_pattern`, in the final sorted order; when at least one
exists, the redirect path is `../versions/<last released>/index.html`, and
otherwise it is `../index.html`, the development documentation's index. -/
theorem spec_c2 {K : Type} [LinearOrder K] (cfg : Config K) (env : Env) (args : Args)
    (srefs : List GitVersionRef) (st : MetaSt)
    (h0 : args.noconfig = false) (h1 : mainSorted cfg env args = some srefs)
    (h2 : devStage env args (metaState cfg env args srefs) = .ok st)
    (h3 : args.dump_metadata = false) (h4 : st.metadata ≠ []) :
    ((mainModel cfg env args).trace).filter evIsRedirect
      = [Ev.redirectWrite (env.abspath (pjoin (sourcedirRel env args) "_static/index.html"))
          (generateHtmlRedirectionPage (redirTarget st.released))] ∧
    st.released = ((survivors cfg env args srefs []).filter
        (fun r => cfg.smv_released_pattern r.refname)).map (fun r => r.name) ∧
    (∀ v, st.released.getLast? = some v →
      redirTarget st.released = pjoin (pjoin (pjoin ".." "versions") v) "index.html") ∧
    (st.released.getLast? = none → redirTarget st.released = pjoin ".." "index.html") := by
  refine ⟨?_, ?_, ?_, ?_⟩
  · rw [mainModel_run cfg env args srefs st h0 h1 h2, finishMain_build env args st h3 h4,
      buildLoop_trace_other env args evIsRedirect (fun _ => rfl) (fun _ _ _ _ => rfl),
      List.filter_append,
      preTrace_filter cfg env args srefs st h2 evIsRedirect
        (fun _ _ _ => rfl) (fun _ => rfl) (fun _ => rfl) rfl]
    rfl
  · obtain ⟨-, -, hrel⟩ := metaLoop_characterization cfg env args srefs
      ⟨[], [], [], initTrace env args⟩
    have hrel2 : (metaState cfg env args srefs).released
        = ((survivors cfg env args srefs []).filter
            (fun r => cfg.smv_released_pattern r.refname)).map (fun r => r.name) := by
      rw [metaState, hrel]
      rfl
    rcases devStage_ok h2 with h | ⟨dn, -, -, -, -, hr, -⟩
    · rw [h]
      exact hrel2
    · rw [hr]
      exact hrel2
  · intro v hv
    unfold redirTarget
    rw [hv]
  · intro hv
    unfold redirTarget
    rw [hv]

theorem spec_c2_witness :
    ((mainModel exConfig exEnv exArgs).trace).filter evIsRedirect
      = [Ev.redirectWrite "docs/_static/index.html"
          (generateHtmlRedirectionPage "../versions/1.0/index.html")] ∧
    (metaState exConfig exEnv exArgs [exRef1, exRef2]).released = ["1.0"] := by
  obtain ⟨hfil, hrel, hlast, -⟩ := spec_c2 exConfig exEnv exArgs [exRef1, exRef2]
    (metaState exConfig exEnv exArgs [exRef1, exRef2])
    rfl (by decide) (by decide) rfl (by decide)
  have hrl : (metaState exConfig exEnv exArgs [exRef1, exRef2]).released = ["1.0"] := by decide
  refine ⟨?_, hrl⟩
  rw [hfil]
  have : redirTarget (metaState exConfig exEnv exArgs [exRef1, exRef2]).released
      = "../versions/1.0/index.html" := by
    rw [hlast "1.0" (by rw [hrl]; rfl)]
    rfl
  rw [this]
  rfl

theorem entryOf_outputdir {K : Type} (cfg : Config K) (env : Env) (args : Args)
    (r : GitVersionRef) :
    (entryOf cfg env args r).outputdir
      = pjoin (env.abspath args.outputdir) (odirOf cfg env args r) := by
  unfold entryOf odirOf
  cases refVCfg env args r <;> rfl

theorem entryOf_basedir {K : Type} (cfg : Config K) (env : Env) (args : Args)
    (r : GitVersionRef) :
    (entryOf cfg env args r).basedir = pjoin env.tmp r.commit := by
  unfold entryOf
  cases refVCfg env args r <;> rfl

theorem survivors_subset {K : Type} (cfg : Config K) (env : Env) (args : Args) :
    ∀ (refs : List GitVersionRef) (used : List String) (r : GitVersionRef),
      r ∈ survivors cfg env args refs used → r ∈ refs := by
  intro refs
  induction refs with
  | nil => intro used r h; simp [survivors] at h
  | cons x rs ih =>
    intro used r h
    by_cases hcopy : env.copy_ok x
    · cases hv : refVCfg env args x with
      | none =>
        rw [show survivors cfg env args (x :: rs) used = survivors cfg env args rs used from by
          simp [survivors, hcopy, hv]] at h
        exact List.mem_cons_of_mem _ (ih used r h)
      | some vcfg =>
        by_cases hdup' : cfg.smv_outputdir_format x vcfg ∈ used
        · rw [show survivors cfg env args (x :: rs) used = survivors cfg env args rs used from by
            simp [survivors, hcopy, hv, hdup']] at h
          exact List.mem_cons_of_mem _ (ih used r h)
        · rw [show survivors cfg env args (x :: rs) used
              = x :: survivors cfg env args rs (used ++ [cfg.smv_outputdir_format x vcfg]) from by
            simp [survivors, hcopy, hv, hdup']] at h
          rcases List.mem_cons.mp h with h | h
          · exact h ▸ List.mem_cons_self x rs
          · exact List.mem_cons_of_mem _ (ih _ r h)
    · rw [show survivors cfg env args (x :: rs) used = survivors cfg env args rs used from by
        simp [survivors, hcopy]] at h
      exact List.mem_cons_of_mem _ (ih used r h)

def exArgsDev : Args :=
  { exArgs with dev_name := some "latest", dev_path := some "1.0" }

/-- C5 (amended): among the non-development versions, output directories
are pairwise distinct — any two distinct metadata entries of the
version-metadata stage have distinct output directories, because a
selected version whose formatted output directory equals an earlier
version's is skipped with a warning instead of being recorded.  (The
original claim extends this to every version that reaches the build loop;
that is false for the development version, whose output directory is not
checked against the others — see the counterexample.) -/
theorem spec_c5_amended {K : Type} [LinearOrder K] (cfg : Config K) (env : Env)
    (args : Args) (srefs : List GitVersionRef) :
    (∀ p q, p ∈ (metaState cfg env args srefs).metadata →
       q ∈ (metaState cfg env args srefs).metadata → p ≠ q →
       p.2.outputdir ≠ q.2.outputdir) ∧
    (∀ used, ((survivors cfg env args srefs used).map (odirOf cfg env args)).Nodup) ∧
    (∀ (st : MetaSt) (r : GitVersionRef) (vcfg : VersionConfig),
      env.copy_ok r = true → refVCfg env args r = some vcfg →
      st.outputdirs.contains (cfg.smv_outputdir_format r vcfg) = true →
      metaStep cfg env args st r =
        { st with trace := st.trace ++ [Ev.copyTree r.refname r.commit (repopathOf env r),
          Ev.loadCfg (confpathOf env args r)] }) := by
  refine ⟨?_, fun used => (survivors_odirs_fresh cfg env args srefs used).1,
    fun _ _ _ h1 h2 h3 => metaStep_dup_odir h1 h2 h3⟩
  intro p q hp hq hne
  obtain ⟨hm, -, -⟩ := metaLoop_characterization cfg env args srefs
    ⟨[], [], [], initTrace env args⟩
  rw [metaState, hm] at hp hq
  rcases foldl_dictInsert_mem _ _ [] p hp with h | ⟨r1, hr1, hp1⟩
  · simp at h
  rcases foldl_dictInsert_mem _ _ [] q hq with h | ⟨r2, hr2, hq1⟩
  · simp at h
  subst hp1
  subst hq1
  by_cases hr12 : r1 = r2
  · exact absurd (by rw [hr12]) hne
  · have hnodup := (survivors_odirs_fresh cfg env args srefs []).1
    have hinj := List.inj_on_of_nodup_map hnodup hr1 hr2
    have hod : odirOf cfg env args r1 ≠ odirOf cfg env args r2 :=
      fun h => hr12 (hinj h)
    simp only [entryOf_outputdir]
    exact fun h => hod (pjoin_right_inj h)

theorem spec_c5_witness :
    (entryOf exConfig exEnv exArgs exRef1).outputdir
      ≠ (entryOf exConfig exEnv exArgs exRef2).outputdir :=
  (spec_c5_amended exConfig exEnv exArgs [exRef1, exRef2]).1
    ("1.0", entryOf exConfig exEnv exArgs exRef1)
    ("2.0", entryOf exConfig exEnv exArgs exRef2)
    (by decide) (by decide) (by decide)

/-- C5 counterexample: pass `--dev-name latest --dev-path 1.0` while a
version "1.0" builds into output dir `1.0`.  Both the version "1.0" and the
development version "latest" reach the build loop and are built into the
same directory `out/1.0`: output directories are not pairwise distinct
among built versions. -/
theorem spec_c5_counterexample :
    (mainModel exConfig exEnv exArgsDev).result = .ok 0 ∧
    ((mainModel exConfig exEnv exArgsDev).trace).filter evIsBuild
      = [Ev.sphinxBuild "1.0" "/tmpx/c1/docs" "out/1.0" "docs",
         Ev.sphinxBuild "2.0" "/tmpx/c2/docs" "out/2.0" "docs",
         Ev.sphinxBuild "latest" "docs" "out/1.0" "docs"] :=
  ⟨rfl, by decide⟩

/-- Every `sphinx-build` event the build loop emits carries the live
checkout's configuration directory `confdir_absolute` as its `-c`
argument (main.py lines 449-450), whatever the entry's own metadata
`confdir` says. -/
theorem buildLoop_confdir (env : Env) (args : Args) :
    ∀ (entries : List (String × MEntry)) (tr : List Ev)
      (vname sd od cd : String),
      Ev.sphinxBuild vname sd od cd ∈ (buildLoop env args entries tr).trace →
      Ev.sphinxBuild vname sd od cd ∈ tr ∨ cd = confdirAbs env args := by
  intro entries
  induction entries with
  | nil => intro tr vname sd od cd h; exact Or.inl h
  | cons q rest ih =>
    intro tr vname sd od cd h
    obtain ⟨vn, data⟩ := q
    unfold buildLoop at h
    by_cases hskip : buildSkip env args data
    · rw [if_pos hskip] at h
      exact ih tr vname sd od cd h
    · rw [if_neg hskip] at h
      have happ : Ev.sphinxBuild vname sd od cd ∈ tr ++ [Ev.makeDirs data.outputdir,
          Ev.sphinxBuild vn data.sourcedir data.outputdir (confdirAbs env args)] →
          Ev.sphinxBuild vname sd od cd ∈ tr ∨ cd = confdirAbs env args := by
        intro hmem
        rcases List.mem_append.mp hmem with h1 | h1
        · exact Or.inl h1
        · simp only [List.mem_cons, List.not_mem_nil, or_false] at h1
          rcases h1 with h1 | h1
          · exact absurd h1 (by simp)
          · injection h1 with e1 e2 e3 e4
            exact Or.inr e4
      by_cases hok : env.build_ok vn
      · rw [if_pos hok] at h
        rcases ih _ vname sd od cd h with hmem | hcd
        · exact happ hmem
        · exact Or.inr hcd
      · rw [if_neg hok] at h
        exact happ h

/-- C6 (amended): per-version builds use isolated working trees for their
sources: every entry of the version metadata stems from a surviving
selected ref, its base directory is the temporary copy keyed by that ref's
commit (`tmp/<commit>`), its source directory and its metadata `confdir`
field lie inside that copy, the tree was copied there during the run, the
copy is not the live checkout (given that the git root does not sit under
the temp dir), and distinct commits map to distinct working trees.
However, the build subprocess itself is always invoked with
`-c confdir_absolute`, the live checkout's configuration directory, so the
build reads `conf.py` from the live checkout, not from the copy (the
original claim's "reads its configuration from that copy" is false; see
the counterexample). -/
theorem spec_c6_amended {K : Type} [LinearOrder K] (cfg : Config K) (env : Env)
    (args : Args) (srefs : List GitVersionRef)
    (hg : strStartsWith env.gitroot (env.tmp ++ "/") = false) :
    (∀ p ∈ (metaState cfg env args srefs).metadata,
       ∃ r ∈ survivors cfg env args srefs [],
         p = (r.name, entryOf cfg env args r) ∧
         p.2.basedir = pjoin env.tmp r.commit ∧
         p.2.sourcedir = pjoin p.2.basedir (sourcedirRel env args) ∧
         p.2.confdir = pjoin p.2.basedir (confdirRel env args) ∧
         Ev.copyTree r.refname r.commit p.2.basedir ∈ (metaState cfg env args srefs).trace ∧
         p.2.basedir ≠ env.gitroot) ∧
    (∀ c1 c2 : String, pjoin env.tmp c1 = pjoin env.tmp c2 → c1 = c2) ∧
    (∀ (entries : List (String × MEntry)) (vname sd od cd : String),
      Ev.sphinxBuild vname sd od cd ∈ (buildLoop env args entries []).trace →
      cd = confdirAbs env args) := by
  refine ⟨?_, fun c1 c2 h => pjoin_right_inj h, ?_⟩
  case refine_2 =>
    intro entries vname sd od cd h
    rcases buildLoop_confdir env args entries [] vname sd od cd h with h | h
    · simp at h
    · exact h
  intro p hp
  obtain ⟨hm, -, -⟩ := metaLoop_characterization cfg env args srefs
    ⟨[], [], [], initTrace env args⟩
  rw [metaState, hm] at hp
  rcases foldl_dictInsert_mem _ _ [] p hp with h | ⟨r, hr, hp1⟩
  · simp at h
  subst hp1
  refine ⟨r, hr, rfl, entryOf_basedir cfg env args r, ?_, ?_, ?_, ?_⟩
  · unfold entryOf mkEntry
    cases refVCfg env args r <;> rfl
  · unfold entryOf mkEntry confpathOf
    cases refVCfg env args r <;> rfl
  · have hrs : r ∈ srefs := survivors_subset cfg env args srefs [] r hr
    have hcopyev := metaLoop_trace_copy cfg env args srefs ⟨[], [], [], initTrace env args⟩
    have hmem : Ev.copyTree r.refname r.commit (repopathOf env r)
        ∈ ((metaState cfg env args srefs).trace).filter evIsCopy := by
      rw [metaState, hcopyev]
      exact List.mem_append.mpr (Or.inr (List.mem_map_of_mem _ hrs))
    have := List.mem_of_mem_filter hmem
    rw [entryOf_basedir cfg env args r]
    exact this
  · rw [entryOf_basedir cfg env args r]
    exact pjoin_ne_of_not_under hg

theorem spec_c6_witness :
    (entryOf exConfig exEnv exArgs exRef1).basedir = pjoin "/tmpx" "c1" ∧
    (entryOf exConfig exEnv exArgs exRef1).basedir ≠ "/repo" := by
  obtain ⟨r, hr, hpq, hb, -, -, -, hne⟩ :=
    (spec_c6_amended exConfig exEnv exArgs [exRef1, exRef2] (by decide)).1
      ("1.0", entryOf exConfig exEnv exArgs exRef1) (by decide)
  exact ⟨by decide, hne⟩

/-- C6 counterexample: every documentation-compiler subprocess receives
`-c confdir_absolute` (main.py lines 449-450), the live checkout's
configuration directory.  In this run both versions are built with confdir
`"docs"` — the live checkout's config dir — and not with the per-version
copies `/tmpx/c1/docs` and `/tmpx/c2/docs` that their metadata entries
record: the build does not read its configuration from the isolated copy. -/
theorem spec_c6_counterexample :
    ((mainModel exConfig exEnv exArgs).trace).filter evIsBuild
      = [Ev.sphinxBuild "1.0" "/tmpx/c1/docs" "out/1.0" "docs",
         Ev.sphinxBuild "2.0" "/tmpx/c2/docs" "out/2.0" "docs"] ∧
    confdirAbs exEnv exArgs = "docs" ∧
    (entryOf exConfig exEnv exArgs exRef1).confdir = "/tmpx/c1/docs" ∧
    (entryOf exConfig exEnv exArgs exRef2).confdir = "/tmpx/c2/docs" ∧
    ("docs" : String) ≠ "/tmpx/c1/docs" ∧
    strStartsWith "docs" ("/tmpx" ++ "/") = false :=
  ⟨by decide, by decide, by decide, by decide, by decide, by decide⟩

def exRefB : GitVersionRef :=
  ⟨"1.0", "c3", "heads", false, "refs/heads/1.0", 30⟩

def exConfigFlat : Config Nat :=
  { exConfig with smv_symver_key := fun _ => some 10 }

def exEnvB : Env :=
  { exEnv with all_refs := [exRefB, exRef1] }

/-- C10 counterexample: a tag and a branch both named "1.0" whose formatted
output directories coincide (the output-dir format maps both to `1.0`).
Both are selected and ordered (the tag first), but the later branch is
skipped by the duplicate-output-dir check before it reaches the metadata
assignment: the metadata keeps the earlier tag's entry, so the later ref
does not overwrite the earlier one's entry. -/
theorem spec_c10_counterexample :
    mainSorted exConfigFlat exEnvB exArgs = some [exRef1, exRefB] ∧
    (metaState exConfigFlat exEnvB exArgs [exRef1, exRefB]).metadata
      = [("1.0", entryOf exConfigFlat exEnvB exArgs exRef1)] ∧
    entryOf exConfigFlat exEnvB exArgs exRef1 ≠ entryOf exConfigFlat exEnvB exArgs exRefB :=
  ⟨by decide, by decide, by decide⟩

/-- C10 (amended): the generated metadata is keyed by the ref's short name
and contains at most one entry per name; among the refs that actually
record an entry (those surviving the copy, config-load and
duplicate-output-dir checks), the one recorded later silently overwrites
the earlier one's entry — the surviving value under a name is the last
recording ref with that name; a later same-name ref whose formatted output
directory coincides with an already-recorded one is skipped and does not
overwrite. -/
theorem spec_c10_amended {K : Type} [LinearOrder K] (cfg : Config K) (env : Env)
    (args : Args) (srefs : List GitVersionRef) :
    (((metaState cfg env args srefs).metadata).map Prod.fst).Nodup ∧
    (∀ n, List.lookup n ((metaState cfg env args srefs).metadata)
        = match ((survivors cfg env args srefs []).filter (fun r => r.name == n)).getLast? with
          | some r => some (entryOf cfg env args r)
          | none => none) := by
  refine ⟨metaState_keys_nodup cfg env args srefs, ?_⟩
  intro n
  obtain ⟨hm, -, -⟩ := metaLoop_characterization cfg env args srefs
    ⟨[], [], [], initTrace env args⟩
  rw [metaState, hm, foldl_dictInsert_lookup]
  cases ((survivors cfg env args srefs []).filter (fun r => r.name == n)).getLast? <;> rfl

end SphinxMultiversion
